import Mathlib

/-!
# Fast Fibonacci by 2x2 matrix exponentiation

A shallow embedding of `src/fast_fib/main.c` (fixed-width engine, `long long`
cells) and `src/fast_fib/main_bigint.c` (arbitrary-precision engine, GMP `mpz_t`
cells), followed by the properties proved about them.

Conventions of the embedding.

* A C `int` exponent or index is an `Int`; `n / 2` is `Int.tdiv` and `n % 2` is
  `Int.tmod` (C division truncates toward zero).  The `int` operations of the
  source are `n - 1`, `n - 2`, `n / 2` and `n % 2`; they are taken exact, as
  they are in C for every `int` above `INT_MIN + 1`.
* An `mpz_t` is an `Int`.
* A `long long` is an `Int` in the range `[-2^63, 2^63 - 1]`.  Its `+` and `*`
  are given twice: `add64` / `mul64` wrap modulo `2^64` (two's complement), and
  `add_chk` / `mul_chk` return `none` when the exact result leaves the range
  (signed overflow, which C leaves undefined).  The functions built on the
  first pair carry the source's names; those built on the second pair carry
  the suffix `_chk`.
* `multiply` and `multiply_gmp` are given both as functions on matrix values
  and, statement by statement, as transformers of a memory of cells
  (`multiply_mem`, `multiply_gmp_mem`), where the two array arguments are
  addresses that may coincide or overlap.
* `power_args` and `power_gmp_args` list the operands of the `multiply` calls
  that `power` and `power_gmp` perform, and `power_calls` counts the nested
  recursive calls; `power_fuel` and `power_gmp_fuel` bound the depth of the
  recursion.
* `multiply_gmp_res`, `power_gmp_res` and `fast_fib_gmp_res` keep, of the
  arbitrary-precision engine, the `mpz_init`, `mpz_clear` and the uses of each
  variable.
-/

namespace FastFib

/-! ## Machine integers -/

/-- Smallest `long long`. -/
def INT64_MIN : Int := -(2 ^ 63)

/-- Largest `long long`. -/
def INT64_MAX : Int := 2 ^ 63 - 1

/-- The value fits in a `long long`. -/
def inRange64 (x : Int) : Prop := INT64_MIN ≤ x ∧ x ≤ INT64_MAX

instance (x : Int) : Decidable (inRange64 x) := by
  unfold inRange64; exact inferInstance

/-- Two's-complement representative of `x` modulo `2^64` in `[-2^63, 2^63 - 1]`. -/
def wrap64 (x : Int) : Int := (x + 2 ^ 63) % 2 ^ 64 - 2 ^ 63

/-- The `long long` addition, wrapping. -/
def add64 (a b : Int) : Int := wrap64 (a + b)

/-- The `long long` multiplication, wrapping. -/
def mul64 (a b : Int) : Int := wrap64 (a * b)

/-- The `long long` addition, `none` on signed overflow. -/
def add_chk (a b : Int) : Option Int :=
  if inRange64 (a + b) then some (a + b) else none

/-- The `long long` multiplication, `none` on signed overflow. -/
def mul_chk (a b : Int) : Option Int :=
  if inRange64 (a * b) then some (a * b) else none

/-! ## Matrices -/

/-- A 2x2 array `F[2][2]`, cell `aij` being `F[i][j]`. -/
structure Mat where
  a00 : Int
  a01 : Int
  a10 : Int
  a11 : Int
deriving DecidableEq

/-- The step matrix `M` that `power` builds, and the initial `F` of `fast_fib`:
`[0][0] = 1`, `[0][1] = 1`, `[1][0] = 1`, `[1][1] = 0`. -/
def base : Mat := ⟨1, 1, 1, 0⟩

/-- The matrix as a mathematical 2x2 integer matrix. -/
def Mat.toMatrix (F : Mat) : Matrix (Fin 2) (Fin 2) ℤ :=
  !![F.a00, F.a01; F.a10, F.a11]

/-- Every cell reduced to its `long long` representative. -/
def Mat.wrap (F : Mat) : Mat :=
  ⟨wrap64 F.a00, wrap64 F.a01, wrap64 F.a10, wrap64 F.a11⟩

/-- Every cell fits in a `long long`. -/
def Mat.inRange (F : Mat) : Prop :=
  inRange64 F.a00 ∧ inRange64 F.a01 ∧ inRange64 F.a10 ∧ inRange64 F.a11

/-- All four cells are non-negative. -/
def Mat.nonneg (F : Mat) : Prop :=
  0 ≤ F.a00 ∧ 0 ≤ F.a01 ∧ 0 ≤ F.a10 ∧ 0 ≤ F.a11

/-- The shape `[[a + b, a], [a, b]]` of the powers of the step matrix. -/
def Mat.fibForm (F : Mat) : Prop :=
  F.a01 = F.a10 ∧ F.a00 = F.a01 + F.a11

/-- Both cells of a pair of operands wrapped. -/
def wrapPair (p : Mat × Mat) : Mat × Mat := (p.1.wrap, p.2.wrap)

/-! ## The fixed-width engine (`main.c`), wrapping arithmetic -/

/-- `multiply` of `main.c`: the four temporaries, then the four stores. -/
def multiply (F M : Mat) : Mat :=
  let x := add64 (mul64 F.a00 M.a00) (mul64 F.a01 M.a10)
  let y := add64 (mul64 F.a00 M.a01) (mul64 F.a01 M.a11)
  let z := add64 (mul64 F.a10 M.a00) (mul64 F.a11 M.a10)
  let w := add64 (mul64 F.a10 M.a01) (mul64 F.a11 M.a11)
  { a00 := x, a01 := y, a10 := z, a11 := w }

/-- `power` of `main.c`; the result is the final content of `F`. -/
def power (F : Mat) (n : Int) : Mat :=
  if _h : n = 0 ∨ n = 1 then F
  else
    let F1 := power F (n.tdiv 2)
    let F2 := multiply F1 F1
    if n.tmod 2 ≠ 0 then multiply F2 base else F2
termination_by n.natAbs
decreasing_by
  have h2 : (n.tdiv 2).natAbs = n.natAbs / 2 := by rw [Int.natAbs_tdiv]; rfl
  omega

/-- `fast_fib` of `main.c`. -/
def fast_fib (n : Int) : Int :=
  if n = 0 then 0
  else (power base (n - 1)).a00

/-- `slow_fib` of `main.c`. -/
def slow_fib (n : Int) : Int :=
  if _h : n ≤ 1 then n
  else add64 (slow_fib (n - 1)) (slow_fib (n - 2))
termination_by n.toNat
decreasing_by
  all_goals omega

/-! ## The fixed-width engine, overflow-checked arithmetic -/

/-- `multiply` of `main.c`, `none` as soon as a product or a sum overflows. -/
def multiply_chk (F M : Mat) : Option Mat := do
  let x ← add_chk (← mul_chk F.a00 M.a00) (← mul_chk F.a01 M.a10)
  let y ← add_chk (← mul_chk F.a00 M.a01) (← mul_chk F.a01 M.a11)
  let z ← add_chk (← mul_chk F.a10 M.a00) (← mul_chk F.a11 M.a10)
  let w ← add_chk (← mul_chk F.a10 M.a01) (← mul_chk F.a11 M.a11)
  pure { a00 := x, a01 := y, a10 := z, a11 := w }

/-- `power` of `main.c`, `none` as soon as a `multiply` overflows. -/
def power_chk (F : Mat) (n : Int) : Option Mat :=
  if _h : n = 0 ∨ n = 1 then some F
  else
    (power_chk F (n.tdiv 2)).bind fun F1 =>
    (multiply_chk F1 F1).bind fun F2 =>
    if n.tmod 2 ≠ 0 then multiply_chk F2 base else some F2
termination_by n.natAbs
decreasing_by
  have h2 : (n.tdiv 2).natAbs = n.natAbs / 2 := by rw [Int.natAbs_tdiv]; rfl
  omega

/-- `fast_fib` of `main.c`, `none` as soon as a `multiply` overflows. -/
def fast_fib_chk (n : Int) : Option Int :=
  if n = 0 then some 0
  else (power_chk base (n - 1)).map fun F => F.a00

/-- `slow_fib` of `main.c`, `none` as soon as an addition overflows. -/
def slow_fib_chk (n : Int) : Option Int :=
  if _h : n ≤ 1 then some n
  else
    (slow_fib_chk (n - 1)).bind fun a =>
    (slow_fib_chk (n - 2)).bind fun b =>
    add_chk a b
termination_by n.toNat
decreasing_by
  all_goals omega

/-! ## The arbitrary-precision engine (`main_bigint.c`) -/

/-- `multiply_gmp` of `main_bigint.c`: `temp1`, `temp2` and the four results
`x`, `y`, `z`, `w`, then the four `mpz_set`. -/
def multiply_gmp (F M : Mat) : Mat :=
  let temp1 := F.a00 * M.a00
  let temp2 := F.a01 * M.a10
  let x := temp1 + temp2
  let temp1 := F.a00 * M.a01
  let temp2 := F.a01 * M.a11
  let y := temp1 + temp2
  let temp1 := F.a10 * M.a00
  let temp2 := F.a11 * M.a10
  let z := temp1 + temp2
  let temp1 := F.a10 * M.a01
  let temp2 := F.a11 * M.a11
  let w := temp1 + temp2
  { a00 := x, a01 := y, a10 := z, a11 := w }

/-- `power_gmp` of `main_bigint.c`; the result is the final content of `F`. -/
def power_gmp (F : Mat) (n : Int) : Mat :=
  if _h : n = 0 ∨ n = 1 then F
  else
    let F1 := power_gmp F (n.tdiv 2)
    let F2 := multiply_gmp F1 F1
    if n.tmod 2 ≠ 0 then multiply_gmp F2 base else F2
termination_by n.natAbs
decreasing_by
  have h2 : (n.tdiv 2).natAbs = n.natAbs / 2 := by rw [Int.natAbs_tdiv]; rfl
  omega

/-- `fast_fib_gmp` of `main_bigint.c`; the result is the value stored in
`result`. -/
def fast_fib_gmp (n : Int) : Int :=
  if n = 0 then 0
  else (power_gmp base (n - 1)).a00

/-! ## `multiply` on memory

The arrays are passed by address, and `power` calls `multiply(F, F)`: here
the two functions are given statement by statement on a memory of cells. -/

/-- A memory: one value per cell address (a `long long`, or an `mpz_t`). -/
abbrev Mem := Nat → Int

/-- Address of the cell `F[i][j]` of the array `F[2][2]` that starts at `F`. -/
def cellAddr (F i j : Nat) : Nat := F + 2 * i + j

/-- The assignment `*a = v`. -/
def store (mem : Mem) (a : Nat) (v : Int) : Mem :=
  fun b => if b = a then v else mem b

/-- The array `F[2][2]` read from memory. -/
def loadMat (mem : Mem) (F : Nat) : Mat :=
  ⟨mem (cellAddr F 0 0), mem (cellAddr F 0 1), mem (cellAddr F 1 0), mem (cellAddr F 1 1)⟩

/-- `multiply` of `main.c`, statement by statement: the locals `x`, `y`, `z`,
`w` are computed from memory, then stored in the four cells of `F` in turn. -/
def multiply_mem (mem : Mem) (F M : Nat) : Mem :=
  let x := add64 (mul64 (mem (cellAddr F 0 0)) (mem (cellAddr M 0 0)))
    (mul64 (mem (cellAddr F 0 1)) (mem (cellAddr M 1 0)))
  let y := add64 (mul64 (mem (cellAddr F 0 0)) (mem (cellAddr M 0 1)))
    (mul64 (mem (cellAddr F 0 1)) (mem (cellAddr M 1 1)))
  let z := add64 (mul64 (mem (cellAddr F 1 0)) (mem (cellAddr M 0 0)))
    (mul64 (mem (cellAddr F 1 1)) (mem (cellAddr M 1 0)))
  let w := add64 (mul64 (mem (cellAddr F 1 0)) (mem (cellAddr M 0 1)))
    (mul64 (mem (cellAddr F 1 1)) (mem (cellAddr M 1 1)))
  let mem := store mem (cellAddr F 0 0) x
  let mem := store mem (cellAddr F 0 1) y
  let mem := store mem (cellAddr F 1 0) z
  store mem (cellAddr F 1 1) w

/-- `multiply_gmp` of `main_bigint.c`, statement by statement: the locals
`temp1`, `temp2`, `x`, `y`, `z`, `w` are set by `mpz_mul` and `mpz_add` from
memory, then the four `mpz_set` store into the cells of `F` in turn. -/
def multiply_gmp_mem (mem : Mem) (F M : Nat) : Mem :=
  let temp1 := mem (cellAddr F 0 0) * mem (cellAddr M 0 0)
  let temp2 := mem (cellAddr F 0 1) * mem (cellAddr M 1 0)
  let x := temp1 + temp2
  let temp1 := mem (cellAddr F 0 0) * mem (cellAddr M 0 1)
  let temp2 := mem (cellAddr F 0 1) * mem (cellAddr M 1 1)
  let y := temp1 + temp2
  let temp1 := mem (cellAddr F 1 0) * mem (cellAddr M 0 0)
  let temp2 := mem (cellAddr F 1 1) * mem (cellAddr M 1 0)
  let z := temp1 + temp2
  let temp1 := mem (cellAddr F 1 0) * mem (cellAddr M 0 1)
  let temp2 := mem (cellAddr F 1 1) * mem (cellAddr M 1 1)
  let w := temp1 + temp2
  let mem := store mem (cellAddr F 0 0) x
  let mem := store mem (cellAddr F 0 1) y
  let mem := store mem (cellAddr F 1 0) z
  store mem (cellAddr F 1 1) w

/-- The address is none of the four cells of the array at `F`. -/
def outside (F a : Nat) : Prop :=
  a ≠ cellAddr F 0 0 ∧ a ≠ cellAddr F 0 1 ∧ a ≠ cellAddr F 1 0 ∧ a ≠ cellAddr F 1 1

/-- The content of `F` at the last `multiply(F, F)` of `fast_fib(93)`: the
Fibonacci matrix of 46, left by `power(F, 46)`. -/
def squared93 : Mat := ⟨2971215073, 1836311903, 1836311903, 1134903170⟩

/-- A memory holding the array `[[1, 2], [3, 4]]` at address 0. -/
def sampleMem : Mem := fun a => (a : Int) + 1

/-! ## The digit count printed by `main` of `main_bigint.c` -/

/-- The GMP library call `mpz_get_str(NULL, 10, v)`: the decimal digits of
`v`, most significant first, after a minus sign when `v` is negative. -/
def mpz_get_str (v : Int) : List Char :=
  if v < 0 then '-' :: Nat.toDigits 10 v.natAbs else Nat.toDigits 10 v.natAbs

/-- The C library call `strlen`. -/
def strlen (str : List Char) : Nat := str.length

/-- The `len` that one round of the loop of `main` prints as the digit count
for the index `n`; `none` when `n ≤ 100`, where the value is printed whole and
no count is made. -/
def main_len (n : Int) : Option Nat :=
  if n ≤ 100 then none
  else some (strlen (mpz_get_str (fast_fib_gmp n)))

/-! ## The `multiply` calls that `power` performs -/

/-- The operands `(F, M)`, as they are on entry, of every `multiply` call that
`power(F, n)` of `main.c` performs, in the order of the calls. -/
def power_args (F : Mat) (n : Int) : List (Mat × Mat) :=
  if _h : n = 0 ∨ n = 1 then []
  else
    let calls := power_args F (n.tdiv 2)
    let F1 := power F (n.tdiv 2)
    let F2 := multiply F1 F1
    if n.tmod 2 ≠ 0 then calls ++ [(F1, F1), (F2, base)] else calls ++ [(F1, F1)]
termination_by n.natAbs
decreasing_by
  have h2 : (n.tdiv 2).natAbs = n.natAbs / 2 := by rw [Int.natAbs_tdiv]; rfl
  omega

/-- The same for `power_gmp(F, n)` of `main_bigint.c`. -/
def power_gmp_args (F : Mat) (n : Int) : List (Mat × Mat) :=
  if _h : n = 0 ∨ n = 1 then []
  else
    let calls := power_gmp_args F (n.tdiv 2)
    let F1 := power_gmp F (n.tdiv 2)
    let F2 := multiply_gmp F1 F1
    if n.tmod 2 ≠ 0 then calls ++ [(F1, F1), (F2, base)] else calls ++ [(F1, F1)]
termination_by n.natAbs
decreasing_by
  have h2 : (n.tdiv 2).natAbs = n.natAbs / 2 := by rw [Int.natAbs_tdiv]; rfl
  omega

/-- The operands of every `multiply` call during `fast_fib(n)`. -/
def fast_fib_args (n : Int) : List (Mat × Mat) :=
  if n = 0 then [] else power_args base (n - 1)

/-- The exact values of the eight products and four sums that one call
`multiply(F, M)` evaluates. -/
def multiply_vals (F M : Mat) : List Int :=
  [F.a00 * M.a00, F.a01 * M.a10, F.a00 * M.a00 + F.a01 * M.a10,
   F.a00 * M.a01, F.a01 * M.a11, F.a00 * M.a01 + F.a01 * M.a11,
   F.a10 * M.a00, F.a11 * M.a10, F.a10 * M.a00 + F.a11 * M.a10,
   F.a10 * M.a01, F.a11 * M.a11, F.a10 * M.a01 + F.a11 * M.a11]

/-- The four cells of a matrix. -/
def Mat.cells (F : Mat) : List Int := [F.a00, F.a01, F.a10, F.a11]

/-- The number of nested recursive calls that `power(F, n)` (and
`power_gmp(F, n)`) makes: none when `n` is 0 or 1, else one more than the call
on `n / 2` makes. -/
def power_calls (n : Int) : Nat :=
  if _h : n = 0 ∨ n = 1 then 0
  else 1 + power_calls (n.tdiv 2)
termination_by n.natAbs
decreasing_by
  have h2 : (n.tdiv 2).natAbs = n.natAbs / 2 := by rw [Int.natAbs_tdiv]; rfl
  omega

/-- `power` of `main.c` run with a bound on the depth of the recursion: `none`
when the bound is exhausted before the call returns. -/
def power_fuel : Nat → Mat → Int → Option Mat
  | 0, _, _ => none
  | fuel + 1, F, n =>
    if n = 0 ∨ n = 1 then some F
    else
      (power_fuel fuel F (n.tdiv 2)).map fun F1 =>
        let F2 := multiply F1 F1
        if n.tmod 2 ≠ 0 then multiply F2 base else F2

/-- `power_gmp` of `main_bigint.c` run with a bound on the depth of the
recursion. -/
def power_gmp_fuel : Nat → Mat → Int → Option Mat
  | 0, _, _ => none
  | fuel + 1, F, n =>
    if n = 0 ∨ n = 1 then some F
    else
      (power_gmp_fuel fuel F (n.tdiv 2)).map fun F1 =>
        let F2 := multiply_gmp F1 F1
        if n.tmod 2 ≠ 0 then multiply_gmp F2 base else F2

/-- A matrix that is not the step matrix: twice the identity. -/
def twiceId : Mat := ⟨2, 0, 0, 2⟩

/-! ## The lifecycle of the big integers in `main_bigint.c`

Each `mpz_t` variable is identified by its stack slot: the locals of a frame
occupy the slots from `sp` on, and the frame of a callee starts above them.
The heap records which variables are initialised and not yet cleared, and
counts the initialisations and the clears.  Initialising a live variable,
clearing a variable that is not live, and reading or writing a variable that
is not live all fail. -/

/-- The state of the big integers. -/
structure Heap where
  /-- the variables initialised and not yet cleared -/
  live : List Nat
  /-- how many `mpz_init` / `mpz_init_set_ui` so far -/
  inits : Nat
  /-- how many `mpz_clear` so far -/
  clears : Nat
deriving DecidableEq

/-- The four `mpz_t` cells of an array `F[2][2]`. -/
structure MatIds where
  c00 : Nat
  c01 : Nat
  c10 : Nat
  c11 : Nat

/-- All four cells are live. -/
def MatIds.liveIn (F : MatIds) (L : List Nat) : Prop :=
  F.c00 ∈ L ∧ F.c01 ∈ L ∧ F.c10 ∈ L ∧ F.c11 ∈ L

/-- Every live variable lies below the slot `sp`. -/
def belowSp (L : List Nat) (sp : Nat) : Prop := ∀ x ∈ L, x < sp

/-- The calls `mpz_init(x)` and `mpz_init_set_ui(x, v)`: fail when `x` is
live already. -/
def mpz_init (x : Nat) (h : Heap) : Option Heap :=
  if x ∈ h.live then none
  else some { live := x :: h.live, inits := h.inits + 1, clears := h.clears }

/-- The call `mpz_clear(x)`: fails unless `x` is live. -/
def mpz_clear (x : Nat) (h : Heap) : Option Heap :=
  if x ∈ h.live then
    some { live := h.live.erase x, inits := h.inits, clears := h.clears + 1 }
  else none

/-- A GMP call that reads or writes the variables `xs` (`mpz_mul`, `mpz_add`,
`mpz_set`, `mpz_set_ui`): fails unless all of them are live. -/
def mpz_use (xs : List Nat) (h : Heap) : Option Heap :=
  if ∀ x ∈ xs, x ∈ h.live then some h else none

/-- A sequence of statements, run in order until one fails. -/
def runOps : List (Heap → Option Heap) → Heap → Option Heap
  | [], h => some h
  | op :: ops, h => (op h).bind (runOps ops)

/-- The lifecycle events of `multiply_gmp(F, M)`, in source order; the six
locals are in the slots from `sp` on. -/
def multiply_gmp_res (F M : MatIds) (sp : Nat) : Heap → Option Heap :=
  let x := sp
  let y := sp + 1
  let z := sp + 2
  let w := sp + 3
  let temp1 := sp + 4
  let temp2 := sp + 5
  runOps [
    mpz_init x, mpz_init y, mpz_init z, mpz_init w, mpz_init temp1, mpz_init temp2,
    mpz_use [temp1, F.c00, M.c00], mpz_use [temp2, F.c01, M.c10], mpz_use [x, temp1, temp2],
    mpz_use [temp1, F.c00, M.c01], mpz_use [temp2, F.c01, M.c11], mpz_use [y, temp1, temp2],
    mpz_use [temp1, F.c10, M.c00], mpz_use [temp2, F.c11, M.c10], mpz_use [z, temp1, temp2],
    mpz_use [temp1, F.c10, M.c01], mpz_use [temp2, F.c11, M.c11], mpz_use [w, temp1, temp2],
    mpz_use [F.c00, x], mpz_use [F.c01, y], mpz_use [F.c10, z], mpz_use [F.c11, w],
    mpz_clear x, mpz_clear y, mpz_clear z, mpz_clear w, mpz_clear temp1, mpz_clear temp2]

/-- The lifecycle events of `power_gmp(F, n)`, in source order; the local
array `M` is in the four slots from `sp` on. -/
def power_gmp_res (F : MatIds) (n : Int) (sp : Nat) : Heap → Option Heap :=
  if _h : n = 0 ∨ n = 1 then some
  else
    let M : MatIds := ⟨sp, sp + 1, sp + 2, sp + 3⟩
    runOps [
      mpz_init M.c00, mpz_init M.c01, mpz_init M.c10, mpz_init M.c11,
      power_gmp_res F (n.tdiv 2) (sp + 4),
      multiply_gmp_res F F (sp + 4),
      if n.tmod 2 ≠ 0 then multiply_gmp_res F M (sp + 4) else some,
      mpz_clear M.c00, mpz_clear M.c01, mpz_clear M.c10, mpz_clear M.c11]
termination_by n.natAbs
decreasing_by
  have h2 : (n.tdiv 2).natAbs = n.natAbs / 2 := by rw [Int.natAbs_tdiv]; rfl
  omega

/-- The lifecycle events of `fast_fib_gmp(result, n)`, in source order; the
local array `F` is in the four slots from `sp` on, and `result` is initialised
and cleared by the caller. -/
def fast_fib_gmp_res (result : Nat) (n : Int) (sp : Nat) : Heap → Option Heap :=
  if n = 0 then mpz_use [result]
  else
    let F : MatIds := ⟨sp, sp + 1, sp + 2, sp + 3⟩
    runOps [
      mpz_init F.c00, mpz_init F.c01, mpz_init F.c10, mpz_init F.c11,
      power_gmp_res F (n - 1) (sp + 4),
      mpz_use [result, F.c00],
      mpz_clear F.c00, mpz_clear F.c01, mpz_clear F.c10, mpz_clear F.c11]

/-! ## The Fibonacci sequence of the specification -/

/-- The sequence `fib(0) = 0`, `fib(1) = 1`, `fib(k) = fib(k-1) + fib(k-2)`. -/
def fib : Nat → Int
  | 0 => 0
  | 1 => 1
  | k + 2 => fib (k + 1) + fib k

/-- The matrix `[[fib(n+1), fib(n)], [fib(n), fib(n-1)]]`, for `n ≥ 1`. -/
def fibMat (n : Nat) : Mat :=
  ⟨fib (n + 1), fib n, fib n, fib (n - 1)⟩

/-! ## Auxiliary facts -/

theorem fib_add_two (k : Nat) : fib (k + 2) = fib (k + 1) + fib k := by
  rw [fib]

theorem fib_eq_natFib (n : Nat) : fib n = (Nat.fib n : Int) := by
  induction n using Nat.strong_induction_on with
  | _ n ih =>
    match n with
    | 0 => simp [fib]
    | 1 => simp [fib]
    | k + 2 =>
      rw [fib_add_two, ih (k + 1) (by omega), ih k (by omega), Nat.fib_add_two]
      push_cast
      ring

/-! ### Wrapping arithmetic -/

theorem wrap64_inRange (x : Int) : inRange64 (wrap64 x) := by
  unfold inRange64 wrap64 INT64_MIN INT64_MAX
  omega

theorem wrap64_of_inRange (x : Int) (h : inRange64 x) : wrap64 x = x := by
  unfold inRange64 INT64_MIN INT64_MAX at h
  unfold wrap64
  omega

theorem wrap64_modEq (x : Int) : wrap64 x ≡ x [ZMOD 2 ^ 64] := by
  unfold wrap64
  have h : (x + 2 ^ 63) % 2 ^ 64 ≡ x + 2 ^ 63 [ZMOD 2 ^ 64] := Int.mod_modEq _ _
  calc (x + 2 ^ 63) % 2 ^ 64 - 2 ^ 63
      ≡ (x + 2 ^ 63) - 2 ^ 63 [ZMOD 2 ^ 64] := h.sub_right _
    _ = x := by ring

theorem wrap64_congr {a b : Int} (h : a ≡ b [ZMOD 2 ^ 64]) : wrap64 a = wrap64 b := by
  unfold wrap64
  have h2 : (a + 2 ^ 63) % 2 ^ 64 = (b + 2 ^ 63) % 2 ^ 64 := h.add_right _
  rw [h2]

theorem wrap64_idem (x : Int) : wrap64 (wrap64 x) = wrap64 x :=
  wrap64_congr (wrap64_modEq x)

theorem add64_wrap (a b : Int) : add64 (wrap64 a) (wrap64 b) = wrap64 (a + b) :=
  wrap64_congr ((wrap64_modEq a).add (wrap64_modEq b))

theorem mul64_wrap (a b : Int) : mul64 (wrap64 a) (wrap64 b) = wrap64 (a * b) :=
  wrap64_congr ((wrap64_modEq a).mul (wrap64_modEq b))

/-- A sum of two wrapped products is the wrapped exact sum of products. -/
theorem add64_mul64 (a b c d : Int) :
    add64 (mul64 a b) (mul64 c d) = wrap64 (a * b + c * d) :=
  wrap64_congr ((wrap64_modEq (a * b)).add (wrap64_modEq (c * d)))

/-- The same, the operands being wrapped values. -/
theorem add64_mul64_wrap (a b c d : Int) :
    add64 (mul64 (wrap64 a) (wrap64 b)) (mul64 (wrap64 c) (wrap64 d))
      = wrap64 (a * b + c * d) := by
  rw [add64_mul64]
  exact wrap64_congr
    (((wrap64_modEq a).mul (wrap64_modEq b)).add ((wrap64_modEq c).mul (wrap64_modEq d)))

theorem base_wrap : base.wrap = base := by
  simp [Mat.wrap, base, wrap64]

/-- The wrapping `multiply` is the exact product with every cell wrapped. -/
theorem multiply_eq_wrap (F M : Mat) : multiply F M = (multiply_gmp F M).wrap := by
  simp only [multiply, multiply_gmp, Mat.wrap, add64_mul64]

/-- Wrapping commutes with `multiply`. -/
theorem multiply_wrap (F M : Mat) :
    multiply F.wrap M.wrap = (multiply_gmp F M).wrap := by
  simp only [multiply, multiply_gmp, Mat.wrap, add64_mul64_wrap]

/-! ### One unfolding of each recursion -/

theorem power_stop (F : Mat) (n : Int) (h : n = 0 ∨ n = 1) : power F n = F := by
  rw [power, dif_pos h]

theorem power_step (F : Mat) (n : Int) (h : ¬ (n = 0 ∨ n = 1)) :
    power F n =
      if n.tmod 2 ≠ 0
      then multiply (multiply (power F (n.tdiv 2)) (power F (n.tdiv 2))) base
      else multiply (power F (n.tdiv 2)) (power F (n.tdiv 2)) := by
  rw [power, dif_neg h]

theorem power_gmp_stop (F : Mat) (n : Int) (h : n = 0 ∨ n = 1) : power_gmp F n = F := by
  rw [power_gmp, dif_pos h]

theorem power_gmp_step (F : Mat) (n : Int) (h : ¬ (n = 0 ∨ n = 1)) :
    power_gmp F n =
      if n.tmod 2 ≠ 0
      then multiply_gmp (multiply_gmp (power_gmp F (n.tdiv 2)) (power_gmp F (n.tdiv 2))) base
      else multiply_gmp (power_gmp F (n.tdiv 2)) (power_gmp F (n.tdiv 2)) := by
  rw [power_gmp, dif_neg h]

theorem power_chk_stop (F : Mat) (n : Int) (h : n = 0 ∨ n = 1) :
    power_chk F n = some F := by
  rw [power_chk, dif_pos h]

theorem power_chk_step (F : Mat) (n : Int) (h : ¬ (n = 0 ∨ n = 1)) :
    power_chk F n =
      (power_chk F (n.tdiv 2)).bind fun F1 =>
      (multiply_chk F1 F1).bind fun F2 =>
      if n.tmod 2 ≠ 0 then multiply_chk F2 base else some F2 := by
  rw [power_chk, dif_neg h]

/-- Induction along the recursion of `power`: the exponents `0` and `1` stop,
every other exponent `n` calls on `n / 2`. -/
theorem power_induction {P : Int → Prop}
    (stop : ∀ n : Int, n = 0 ∨ n = 1 → P n)
    (step : ∀ n : Int, ¬ (n = 0 ∨ n = 1) → P (n.tdiv 2) → P n) :
    ∀ n : Int, P n := by
  intro n
  generalize hk : n.natAbs = k
  induction k using Nat.strong_induction_on generalizing n with
  | _ k ih =>
    by_cases h : n = 0 ∨ n = 1
    · exact stop n h
    · apply step n h
      apply ih (n.tdiv 2).natAbs _ _ rfl
      have h2 : (n.tdiv 2).natAbs = n.natAbs / 2 := by rw [Int.natAbs_tdiv]; rfl
      omega

/-- The fixed-width `power`, wrapping, is the exact `power_gmp` wrapped,
for every exponent. -/
theorem power_wrap (F : Mat) (n : Int) :
    power F.wrap n = (power_gmp F n).wrap := by
  induction n using power_induction with
  | stop n h => rw [power_stop _ _ h, power_gmp_stop _ _ h]
  | step n h ih =>
    rw [power_step _ _ h, power_gmp_step _ _ h, ih]
    by_cases hodd : n.tmod 2 ≠ 0
    · rw [if_pos hodd, if_pos hodd, multiply_wrap]
      nth_rewrite 1 [← base_wrap]
      rw [multiply_wrap]
    · rw [if_neg hodd, if_neg hodd, multiply_wrap]

theorem power_base_wrap (n : Int) : power base n = (power_gmp base n).wrap := by
  have h := power_wrap base n
  rwa [base_wrap] at h

/-! ### The Fibonacci sequence -/

theorem fib_nonneg (n : Nat) : 0 ≤ fib n := by
  rw [fib_eq_natFib]; exact Int.natCast_nonneg _

theorem fib_mono {m n : Nat} (h : m ≤ n) : fib m ≤ fib n := by
  rw [fib_eq_natFib, fib_eq_natFib]
  exact_mod_cast Nat.fib_mono h

theorem fib_92 : fib 92 = 7540113804746346429 := by
  rw [fib_eq_natFib]; norm_num

theorem fib_93 : fib 93 = 12200160415121876738 := by
  rw [fib_eq_natFib]; norm_num

/-! ### The exact engine computes the Fibonacci matrix -/

theorem multiply_gmp_toMatrix (F M : Mat) :
    (multiply_gmp F M).toMatrix = F.toMatrix * M.toMatrix := by
  simp [multiply_gmp, Mat.toMatrix, Matrix.mul_fin_two]

theorem toMatrix_injective {F G : Mat} (h : F.toMatrix = G.toMatrix) : F = G := by
  have h00 := congrFun (congrFun h 0) 0
  have h01 := congrFun (congrFun h 0) 1
  have h10 := congrFun (congrFun h 1) 0
  have h11 := congrFun (congrFun h 1) 1
  simp [Mat.toMatrix] at h00 h01 h10 h11
  cases F; cases G
  simp_all

/-- The powers of the step matrix are the Fibonacci matrices. -/
theorem base_pow_eq_fibMat (k : Nat) (hk : 1 ≤ k) :
    base.toMatrix ^ k = (fibMat k).toMatrix := by
  induction k with
  | zero => omega
  | succ k ih =>
    rcases Nat.eq_zero_or_pos k with h0 | hpos
    · subst h0
      simp [fibMat, base, Mat.toMatrix, fib]
    · rw [pow_succ, ih hpos]
      obtain ⟨j, rfl⟩ : ∃ j, k = j + 1 := ⟨k - 1, by omega⟩
      simp only [fibMat, base, Mat.toMatrix, Matrix.mul_fin_two, Nat.add_sub_cancel]
      rw [fib_add_two (j + 1), fib_add_two j]
      simp

/-- For a non-negative exponent, truncated and floor division agree. -/
theorem tdiv_two_of_nonneg (n : Int) (h : 0 ≤ n) : n.tdiv 2 = n / 2 :=
  Int.tdiv_eq_ediv h (by decide)

theorem tmod_two_of_nonneg (n : Int) (h : 0 ≤ n) : n.tmod 2 = n % 2 :=
  Int.tmod_eq_emod h (by decide)

/-- The exact `power_gmp` on the step matrix computes its `n`-th power, for
every exponent `n ≥ 1`. -/
theorem power_gmp_base_toMatrix (n : Int) (hn : 1 ≤ n) :
    (power_gmp base n).toMatrix = base.toMatrix ^ n.toNat := by
  induction n using power_induction with
  | stop n h =>
    have h1 : n = 1 := by omega
    subst h1
    rw [power_gmp_stop _ _ h]
    simp
  | step n h ih =>
    have hd : n.tdiv 2 = n / 2 := tdiv_two_of_nonneg n (by omega)
    have hm : n.tmod 2 = n % 2 := tmod_two_of_nonneg n (by omega)
    rw [power_gmp_step _ _ h, hd, hm]
    rw [hd] at ih
    have ih2 := ih (by omega)
    by_cases hodd : n % 2 ≠ 0
    · rw [if_pos hodd, multiply_gmp_toMatrix, multiply_gmp_toMatrix, ih2,
        ← pow_add, ← pow_succ]
      congr 1
      omega
    · rw [if_neg hodd, multiply_gmp_toMatrix, ih2, ← pow_add]
      congr 1
      omega

/-- The exact `power_gmp` on the step matrix leaves the Fibonacci matrix of
its exponent, for every exponent `n ≥ 1`. -/
theorem power_gmp_base_eq_fibMat (n : Int) (hn : 1 ≤ n) :
    power_gmp base n = fibMat n.toNat := by
  apply toMatrix_injective
  rw [power_gmp_base_toMatrix n hn, base_pow_eq_fibMat _ (by omega)]

/-- The exact driver returns the Fibonacci number of its argument. -/
theorem fast_fib_gmp_eq_fib (n : Int) (hn : 0 ≤ n) : fast_fib_gmp n = fib n.toNat := by
  unfold fast_fib_gmp
  by_cases h0 : n = 0
  · subst h0; simp [fib]
  · rw [if_neg h0]
    by_cases h1 : n = 1
    · subst h1
      rw [power_gmp_stop _ _ (by simp)]
      simp [base, fib]
    · rw [power_gmp_base_eq_fibMat _ (by omega)]
      simp only [fibMat]
      congr 1
      omega

/-- The wrapping driver returns the wrapped value of the exact driver. -/
theorem fast_fib_eq_wrap (n : Int) : fast_fib n = wrap64 (fast_fib_gmp n) := by
  unfold fast_fib fast_fib_gmp
  by_cases h0 : n = 0
  · simp [h0, wrap64]
  · rw [if_neg h0, if_neg h0, power_base_wrap]
    rfl

/-! ### The overflow-checked engine -/

theorem fib_inRange (n : Nat) (hn : n ≤ 92) : inRange64 (fib n) := by
  have h1 := fib_nonneg n
  have h2 := fib_mono hn
  rw [fib_92] at h2
  unfold inRange64 INT64_MIN INT64_MAX
  omega

theorem mul_chk_of_inRange (a b : Int) (h : inRange64 (a * b)) :
    mul_chk a b = some (a * b) := by
  rw [mul_chk, if_pos h]

theorem add_chk_of_inRange (a b : Int) (h : inRange64 (a + b)) :
    add_chk a b = some (a + b) := by
  rw [add_chk, if_pos h]

/-- Two non-negative summands of a sum that fits both fit. -/
theorem inRange64_of_nonneg_add (p q : Int) (hp : 0 ≤ p) (hq : 0 ≤ q)
    (h : inRange64 (p + q)) : inRange64 p ∧ inRange64 q := by
  unfold inRange64 INT64_MIN INT64_MAX at *
  omega

/-- On matrices with non-negative cells whose exact product fits in
`long long` cells, `multiply` overflows nowhere and stores the exact product. -/
theorem multiply_chk_of_nonneg (F M : Mat) (hF : F.nonneg) (hM : M.nonneg)
    (hR : (multiply_gmp F M).inRange) :
    multiply_chk F M = some (multiply_gmp F M) := by
  obtain ⟨f0, f1, f2, f3⟩ := hF
  obtain ⟨m0, m1, m2, m3⟩ := hM
  obtain ⟨r0, r1, r2, r3⟩ := hR
  simp only [multiply_gmp] at r0 r1 r2 r3
  obtain ⟨p0, q0⟩ := inRange64_of_nonneg_add _ _ (mul_nonneg f0 m0) (mul_nonneg f1 m2) r0
  obtain ⟨p1, q1⟩ := inRange64_of_nonneg_add _ _ (mul_nonneg f0 m1) (mul_nonneg f1 m3) r1
  obtain ⟨p2, q2⟩ := inRange64_of_nonneg_add _ _ (mul_nonneg f2 m0) (mul_nonneg f3 m2) r2
  obtain ⟨p3, q3⟩ := inRange64_of_nonneg_add _ _ (mul_nonneg f2 m1) (mul_nonneg f3 m3) r3
  simp only [multiply_chk, multiply_gmp, bind, pure, mul_chk, add_chk, if_pos p0, if_pos q0,
    if_pos p1, if_pos q1, if_pos p2, if_pos q2, if_pos p3, if_pos q3, if_pos r0, if_pos r1,
    if_pos r2, if_pos r3, Option.some_bind]

theorem fibMat_nonneg (n : Nat) : (fibMat n).nonneg :=
  ⟨fib_nonneg _, fib_nonneg _, fib_nonneg _, fib_nonneg _⟩

theorem fibMat_inRange (n : Nat) (hn : n ≤ 91) : (fibMat n).inRange :=
  ⟨fib_inRange _ (by omega), fib_inRange _ (by omega), fib_inRange _ (by omega),
    fib_inRange _ (by omega)⟩

theorem base_eq_fibMat : base = fibMat 1 := by
  simp [base, fibMat, fib]

/-- Multiplying the Fibonacci matrices of `a` and `b` gives that of `a + b`. -/
theorem multiply_gmp_fibMat (a b : Nat) (ha : 1 ≤ a) (hb : 1 ≤ b) :
    multiply_gmp (fibMat a) (fibMat b) = fibMat (a + b) := by
  apply toMatrix_injective
  rw [multiply_gmp_toMatrix, ← base_pow_eq_fibMat a ha, ← base_pow_eq_fibMat b hb,
    ← base_pow_eq_fibMat (a + b) (by omega), pow_add]

/-- With overflow checked, `multiply` on two Fibonacci matrices whose exact
product has cells up to `fib 92` succeeds with the exact product. -/
theorem multiply_chk_fibMat (a b : Nat) (ha : 1 ≤ a) (hb : 1 ≤ b) (hab : a + b ≤ 91) :
    multiply_chk (fibMat a) (fibMat b) = some (fibMat (a + b)) := by
  rw [multiply_chk_of_nonneg _ _ (fibMat_nonneg a) (fibMat_nonneg b), multiply_gmp_fibMat a b ha hb]
  rw [multiply_gmp_fibMat a b ha hb]
  exact fibMat_inRange _ hab

/-- With overflow checked, `power` on the step matrix succeeds for every
exponent from `1` to `91`, and leaves the Fibonacci matrix of the exponent. -/
theorem power_chk_base (n : Int) (h1 : 1 ≤ n) (h91 : n ≤ 91) :
    power_chk base n = some (fibMat n.toNat) := by
  induction n using power_induction with
  | stop n h =>
    have hn : n = 1 := by omega
    subst hn
    rw [power_chk_stop _ _ h, base_eq_fibMat]
    rfl
  | step n h ih =>
    have hd : n.tdiv 2 = n / 2 := tdiv_two_of_nonneg n (by omega)
    have hm : n.tmod 2 = n % 2 := tmod_two_of_nonneg n (by omega)
    rw [power_chk_step _ _ h, hd, hm]
    rw [hd] at ih
    rw [ih (by omega) (by omega), Option.some_bind,
      multiply_chk_fibMat _ _ (by omega) (by omega) (by omega), Option.some_bind]
    by_cases hodd : n % 2 ≠ 0
    · rw [if_pos hodd, base_eq_fibMat,
        multiply_chk_fibMat _ _ (by omega) (by omega) (by omega)]
      congr 2
      omega
    · rw [if_neg hodd]
      congr 2
      omega

/-- With overflow checked, the driver succeeds with the Fibonacci number for
every argument from `0` to `92`. -/
theorem fast_fib_chk_eq_fib (n : Int) (h0 : 0 ≤ n) (h92 : n ≤ 92) :
    fast_fib_chk n = some (fib n.toNat) := by
  unfold fast_fib_chk
  by_cases hz : n = 0
  · subst hz; simp [fib]
  · rw [if_neg hz]
    by_cases ho : n = 1
    · subst ho
      rw [power_chk_stop _ _ (by simp)]
      simp [base, fib]
    · rw [power_chk_base _ (by omega) (by omega)]
      simp only [Option.map_some', fibMat]
      congr 2
      omega

/-! ### The naive recursion -/

theorem slow_fib_unfold (n : Int) :
    slow_fib n = if n ≤ 1 then n else add64 (slow_fib (n - 1)) (slow_fib (n - 2)) := by
  rw [slow_fib]
  split <;> rfl

theorem slow_fib_chk_unfold (n : Int) :
    slow_fib_chk n =
      if n ≤ 1 then some n
      else (slow_fib_chk (n - 1)).bind fun a => (slow_fib_chk (n - 2)).bind fun b =>
        add_chk a b := by
  rw [slow_fib_chk]
  split <;> rfl

/-- Up to index 92 the naive recursion returns the Fibonacci number, with
wrapping additions and with overflow-checked additions alike. -/
theorem slow_fib_nat (k : Nat) (hk : k ≤ 92) :
    slow_fib k = fib k ∧ slow_fib_chk k = some (fib k) := by
  induction k using Nat.strong_induction_on with
  | _ k ih =>
    match k, hk, ih with
    | 0, _, _ =>
      rw [slow_fib_unfold, slow_fib_chk_unfold]
      simp [fib]
    | 1, _, _ =>
      rw [slow_fib_unfold, slow_fib_chk_unfold]
      simp [fib]
    | j + 2, hj, ih =>
      have e1 : ((j + 2 : Nat) : Int) - 1 = ((j + 1 : Nat) : Int) := by push_cast; ring
      have e2 : ((j + 2 : Nat) : Int) - 2 = ((j : Nat) : Int) := by push_cast; ring
      have hlt : ¬ ((j + 2 : Nat) : Int) ≤ 1 := by push_cast; omega
      obtain ⟨a1, a2⟩ := ih (j + 1) (by omega) (by omega)
      obtain ⟨b1, b2⟩ := ih j (by omega) (by omega)
      have hr : inRange64 (fib (j + 1) + fib j) := by
        rw [← fib_add_two]; exact fib_inRange _ hj
      rw [slow_fib_unfold, slow_fib_chk_unfold, if_neg hlt, if_neg hlt, e1, e2, a1, a2, b1, b2,
        Option.some_bind, Option.some_bind, add_chk_of_inRange _ _ hr, fib_add_two, add64,
        wrap64_of_inRange _ hr]
      exact ⟨rfl, rfl⟩

theorem slow_fib_eq_fib (n : Int) (h0 : 0 ≤ n) (h92 : n ≤ 92) :
    slow_fib n = fib n.toNat := by
  have h := (slow_fib_nat n.toNat (by omega)).1
  rwa [Int.toNat_of_nonneg h0] at h

theorem slow_fib_chk_eq_fib (n : Int) (h0 : 0 ≤ n) (h92 : n ≤ 92) :
    slow_fib_chk n = some (fib n.toNat) := by
  have h := (slow_fib_nat n.toNat (by omega)).2
  rwa [Int.toNat_of_nonneg h0] at h

/-- The wrapping driver returns the Fibonacci number for every argument from
`0` to `92`. -/
theorem fast_fib_eq_fib (n : Int) (h0 : 0 ≤ n) (h92 : n ≤ 92) :
    fast_fib n = fib n.toNat := by
  rw [fast_fib_eq_wrap, fast_fib_gmp_eq_fib n h0]
  exact wrap64_of_inRange _ (fib_inRange _ (by omega))

/-! ### When the checked engine succeeds, it agrees with the exact one -/

theorem mul_chk_eq_some (a b p : Int) :
    mul_chk a b = some p ↔ inRange64 (a * b) ∧ a * b = p := by
  unfold mul_chk
  split <;> simp_all

theorem add_chk_eq_some (a b p : Int) :
    add_chk a b = some p ↔ inRange64 (a + b) ∧ a + b = p := by
  unfold add_chk
  split <;> simp_all

/-- A `multiply` that does not overflow stores the exact product, and every
cell of it fits. -/
theorem multiply_chk_some (F M R : Mat) (h : multiply_chk F M = some R) :
    R = multiply_gmp F M ∧ R.inRange := by
  simp only [multiply_chk, bind, pure, Option.bind_eq_some, mul_chk_eq_some,
    add_chk_eq_some, Option.some.injEq] at h
  obtain ⟨_, ⟨_, rfl⟩, _, ⟨_, rfl⟩, _, ⟨r0, rfl⟩, _, ⟨_, rfl⟩, _, ⟨_, rfl⟩, _, ⟨r1, rfl⟩,
    _, ⟨_, rfl⟩, _, ⟨_, rfl⟩, _, ⟨r2, rfl⟩, _, ⟨_, rfl⟩, _, ⟨_, rfl⟩, _, ⟨r3, rfl⟩, rfl⟩ := h
  exact ⟨rfl, r0, r1, r2, r3⟩

theorem Mat.wrap_of_inRange (F : Mat) (h : F.inRange) : F.wrap = F := by
  obtain ⟨h0, h1, h2, h3⟩ := h
  cases F
  simp only [Mat.wrap, wrap64_of_inRange _ h0, wrap64_of_inRange _ h1,
    wrap64_of_inRange _ h2, wrap64_of_inRange _ h3]

theorem base_inRange : base.inRange := by
  unfold Mat.inRange base
  exact ⟨by decide, by decide, by decide, by decide⟩

/-- A `power` on the step matrix in which no `multiply` overflows leaves what
the exact `power_gmp` leaves, and the wrapping `power` leaves the same. -/
theorem power_chk_some (n : Int) (R : Mat) (h : power_chk base n = some R) :
    R = power_gmp base n ∧ R.inRange ∧ power base n = R := by
  induction n using power_induction generalizing R with
  | stop n hn =>
    rw [power_chk_stop _ _ hn] at h
    rw [power_gmp_stop _ _ hn, power_stop _ _ hn]
    cases h
    exact ⟨rfl, base_inRange, rfl⟩
  | step n hn ih =>
    rw [power_chk_step _ _ hn] at h
    rw [power_gmp_step _ _ hn, power_step _ _ hn]
    simp only [Option.bind_eq_some] at h
    obtain ⟨F1, h1, F2, h2, h3⟩ := h
    obtain ⟨e1, r1, w1⟩ := ih F1 h1
    obtain ⟨e2, r2⟩ := multiply_chk_some _ _ _ h2
    have w2 : multiply F1 F1 = F2 := by
      rw [multiply_eq_wrap, ← e2, Mat.wrap_of_inRange _ r2]
    rw [← e1, w1, ← e2, w2]
    by_cases hodd : n.tmod 2 ≠ 0
    · rw [if_pos hodd] at h3
      rw [if_pos hodd, if_pos hodd]
      obtain ⟨e3, r3⟩ := multiply_chk_some _ _ _ h3
      refine ⟨e3, r3, ?_⟩
      rw [multiply_eq_wrap, ← e3, Mat.wrap_of_inRange _ r3]
    · rw [if_neg hodd] at h3
      rw [if_neg hodd, if_neg hodd]
      cases h3
      exact ⟨rfl, r2, rfl⟩

theorem fib_val (k v : Nat) (h : Nat.fib k = v) : fib k = (v : Int) := by
  rw [fib_eq_natFib, h]

/-! ### Beyond index 92 -/

theorem fib_not_inRange (k : Nat) (hk : 93 ≤ k) : ¬ inRange64 (fib k) := by
  have h := fib_mono hk
  rw [fib_93] at h
  unfold inRange64 INT64_MIN INT64_MAX
  omega

/-- With overflow checked, the driver fails for every argument from 93 on. -/
theorem fast_fib_chk_none (n : Int) (h93 : 93 ≤ n) : fast_fib_chk n = none := by
  unfold fast_fib_chk
  rw [if_neg (by omega)]
  cases hR : power_chk base (n - 1) with
  | none => rfl
  | some R =>
    exfalso
    obtain ⟨e, r, _⟩ := power_chk_some _ R hR
    have h00 : inRange64 R.a00 := r.1
    rw [e, power_gmp_base_eq_fibMat _ (by omega)] at h00
    have h00' : inRange64 (fib ((n - 1).toNat + 1)) := h00
    exact fib_not_inRange _ (by omega) h00'

/-! ### Associativity -/

theorem multiply_gmp_assoc (A B C : Mat) :
    multiply_gmp (multiply_gmp A B) C = multiply_gmp A (multiply_gmp B C) := by
  apply toMatrix_injective
  simp only [multiply_gmp_toMatrix, Matrix.mul_assoc]

theorem multiply_wrap_left (F M : Mat) : multiply F.wrap M = (multiply_gmp F M).wrap := by
  simp only [multiply, multiply_gmp, Mat.wrap, add64_mul64]
  congr 1 <;>
    exact wrap64_congr
      (((wrap64_modEq _).mul (Int.ModEq.refl _)).add ((wrap64_modEq _).mul (Int.ModEq.refl _)))

theorem multiply_wrap_right (F M : Mat) : multiply F M.wrap = (multiply_gmp F M).wrap := by
  simp only [multiply, multiply_gmp, Mat.wrap, add64_mul64]
  congr 1 <;>
    exact wrap64_congr
      (((Int.ModEq.refl _).mul (wrap64_modEq _)).add ((Int.ModEq.refl _).mul (wrap64_modEq _)))

theorem multiply_assoc (A B C : Mat) :
    multiply (multiply A B) C = multiply A (multiply B C) := by
  rw [multiply_eq_wrap A B, multiply_wrap_left, multiply_eq_wrap B C, multiply_wrap_right,
    multiply_gmp_assoc]

/-! ### `multiply` on memory -/

theorem loadMat_multiply_mem (mem : Mem) (F M : Nat) :
    loadMat (multiply_mem mem F M) F = multiply (loadMat mem F) (loadMat mem M) := by
  simp [loadMat, multiply_mem, multiply, store, cellAddr]
  intro h
  omega

theorem loadMat_multiply_gmp_mem (mem : Mem) (F M : Nat) :
    loadMat (multiply_gmp_mem mem F M) F = multiply_gmp (loadMat mem F) (loadMat mem M) := by
  simp [loadMat, multiply_gmp_mem, multiply_gmp, store, cellAddr]
  intro h
  omega

theorem multiply_mem_outside (mem : Mem) (F M a : Nat) (h : outside F a) :
    multiply_mem mem F M a = mem a := by
  obtain ⟨h0, h1, h2, h3⟩ := h
  simp [multiply_mem, store, h0, h1, h2, h3]

theorem multiply_gmp_mem_outside (mem : Mem) (F M a : Nat) (h : outside F a) :
    multiply_gmp_mem mem F M a = mem a := by
  obtain ⟨h0, h1, h2, h3⟩ := h
  simp [multiply_gmp_mem, store, h0, h1, h2, h3]

/-! ### The thousandth Fibonacci number -/

theorem fast_fib_gmp_1000 :
    fast_fib_gmp 1000 = 43466557686937456435688527675040625802564660517371780402481729089536555417949051890403879840079255169295922593080322634775209689623239873322471161642996440906533187938298969649928516003704476137795166849228875 := by
  rw [fast_fib_gmp_eq_fib 1000 (by decide)]
  exact fib_val 1000 _ (by norm_num)

set_option maxRecDepth 100000 in
theorem strlen_fib_1000 : strlen (mpz_get_str (fast_fib_gmp 1000)) = 209 := by
  rw [fast_fib_gmp_1000]
  decide

/-! ## The properties -/

/-- C1: for every n with 0 ≤ n ≤ 92 the fixed-width `fast_fib n` returns
exactly `fib n`, the Fibonacci number with `fib 0 = 0`, `fib 1 = 1`,
`fib k = fib (k-1) + fib (k-2)`: with wrapping 64-bit arithmetic the returned
value is `fib n`, and with overflow-checked arithmetic the call succeeds (no
product or sum overflows) with `fib n`.  In particular `fast_fib` returns 0,
1, 1, 55, 6765 and 7540113804746346429 at 0, 1, 2, 10, 20 and 92. -/
theorem C1_fast_fib_exact (n : Int) (h0 : 0 ≤ n) (h92 : n ≤ 92) :
    (fast_fib n = fib n.toNat ∧ fast_fib_chk n = some (fib n.toNat)) ∧
    (fast_fib 0 = 0 ∧ fast_fib 1 = 1 ∧ fast_fib 2 = 1 ∧ fast_fib 10 = 55 ∧
      fast_fib 20 = 6765 ∧ fast_fib 92 = 7540113804746346429) := by
  refine ⟨⟨fast_fib_eq_fib n h0 h92, fast_fib_chk_eq_fib n h0 h92⟩, ?_, ?_, ?_, ?_, ?_, ?_⟩
  · rw [fast_fib_eq_fib 0 (by decide) (by decide)]; exact fib_val 0 0 (by norm_num)
  · rw [fast_fib_eq_fib 1 (by decide) (by decide)]; exact fib_val 1 1 (by norm_num)
  · rw [fast_fib_eq_fib 2 (by decide) (by decide)]; exact fib_val 2 1 (by norm_num)
  · rw [fast_fib_eq_fib 10 (by decide) (by decide)]; exact fib_val 10 55 (by norm_num)
  · rw [fast_fib_eq_fib 20 (by decide) (by decide)]; exact fib_val 20 6765 (by norm_num)
  · rw [fast_fib_eq_fib 92 (by decide) (by decide)]
    exact fib_val 92 7540113804746346429 (by norm_num)

/-- C1 at n = 92. -/
theorem C1_fast_fib_exact_witness :
    (0 : Int) ≤ 92 ∧ (92 : Int) ≤ 92 ∧
    (fast_fib 92 = fib (92 : Int).toNat ∧ fast_fib_chk 92 = some (fib (92 : Int).toNat)) :=
  ⟨by decide, by decide, (C1_fast_fib_exact 92 (by decide) (by decide)).1⟩

/-- C2: for every n ≥ 0 the arbitrary-precision `fast_fib_gmp n` stores exactly
`fib n` in `result`; equivalently, for every n ≥ 1, `power_gmp` applied to the
step matrix with exponent n - 1 leaves `fib n` in cell `[0][0]`.  In particular
`fast_fib_gmp 100 = 354224848179261915075`. -/
theorem C2_fast_fib_gmp_exact (n : Int) (h0 : 0 ≤ n) :
    fast_fib_gmp n = fib n.toNat ∧
    (1 ≤ n → (power_gmp base (n - 1)).a00 = fib n.toNat) ∧
    fast_fib_gmp 100 = 354224848179261915075 := by
  refine ⟨fast_fib_gmp_eq_fib n h0, ?_, ?_⟩
  · intro h1
    have h := fast_fib_gmp_eq_fib n h0
    unfold fast_fib_gmp at h
    rwa [if_neg (by omega)] at h
  · rw [fast_fib_gmp_eq_fib 100 (by decide)]
    exact fib_val 100 354224848179261915075 (by norm_num)

/-- C2 at n = 100. -/
theorem C2_fast_fib_gmp_exact_witness :
    (0 : Int) ≤ 100 ∧ fast_fib_gmp 100 = fib (100 : Int).toNat :=
  ⟨by decide, (C2_fast_fib_gmp_exact 100 (by decide)).1⟩

/-- C3: for every n with 0 ≤ n ≤ 30, `fast_fib n` and `slow_fib n` return the
same value (with wrapping arithmetic, and with overflow-checked arithmetic,
where both succeed). -/
theorem C3_fast_eq_slow (n : Int) (h0 : 0 ≤ n) (h30 : n ≤ 30) :
    fast_fib n = slow_fib n ∧
    (fast_fib_chk n = slow_fib_chk n ∧ fast_fib_chk n = some (fast_fib n)) := by
  have hf := fast_fib_eq_fib n h0 (by omega)
  have hs := slow_fib_eq_fib n h0 (by omega)
  have hfc := fast_fib_chk_eq_fib n h0 (by omega)
  have hsc := slow_fib_chk_eq_fib n h0 (by omega)
  exact ⟨by rw [hf, hs], by rw [hfc, hsc], by rw [hfc, hf]⟩

/-- C3 at n = 30. -/
theorem C3_fast_eq_slow_witness :
    (0 : Int) ≤ 30 ∧ (30 : Int) ≤ 30 ∧ fast_fib 30 = slow_fib 30 :=
  ⟨by decide, by decide, (C3_fast_eq_slow 30 (by decide) (by decide)).1⟩

/-- C4, as stated, fails at the exponent 0: `power` and `power_gmp` return at
once and leave the step matrix in `F`, whereas the 0-th power of the step
matrix is the identity matrix. -/
theorem C4_counterexample :
    power_gmp base 0 = base ∧ power base 0 = base ∧ power_chk base 0 = some base ∧
    (power_gmp base 0).toMatrix ≠ base.toMatrix ^ (0 : Int).toNat ∧
    (power base 0).toMatrix ≠ base.toMatrix ^ (0 : Int).toNat := by
  have hg : power_gmp base 0 = base := power_gmp_stop _ _ (by simp)
  have hp : power base 0 = base := power_stop _ _ (by simp)
  have hne : base.toMatrix ≠ base.toMatrix ^ (0 : Int).toNat := by
    intro h
    have h01 := congrFun (congrFun h 0) 1
    simp [base, Mat.toMatrix] at h01
  refine ⟨hg, hp, power_chk_stop _ _ (by simp), ?_, ?_⟩
  · rw [hg]; exact hne
  · rw [hp]; exact hne

/-- C4, amended: for every exponent n ≥ 1, `power_gmp` called on a matrix that
initially equals the step matrix leaves the n-th matrix power of the step
matrix; so does the fixed-width `power` whenever no overflow occurs, which is
the case for every n from 1 to 91. -/
theorem C4_power_base_pow (n : Int) (h1 : 1 ≤ n) :
    (power_gmp base n).toMatrix = base.toMatrix ^ n.toNat ∧
    (∀ R : Mat, power_chk base n = some R →
      R.toMatrix = base.toMatrix ^ n.toNat ∧ power base n = R) ∧
    (n ≤ 91 → ∃ R : Mat, power_chk base n = some R) := by
  refine ⟨power_gmp_base_toMatrix n h1, ?_, ?_⟩
  · intro R hR
    obtain ⟨e, _, w⟩ := power_chk_some n R hR
    exact ⟨by rw [e, power_gmp_base_toMatrix n h1], w⟩
  · intro h91
    exact ⟨_, power_chk_base n h1 h91⟩

/-- C4, amended, at n = 5. -/
theorem C4_power_base_pow_witness :
    (1 : Int) ≤ 5 ∧ (power_gmp base 5).toMatrix = base.toMatrix ^ (5 : Int).toNat :=
  ⟨by decide, (C4_power_base_pow 5 (by decide)).1⟩

/-- C5, as stated, fails for the fixed-width `multiply` on cells whose exact
product leaves the signed 64-bit range.  At the last squaring of
`fast_fib(93)`, where `F` holds the Fibonacci matrix of 46 left by
`power(F, 46)`, the exact product has `fib 93 = 12200160415121876738` in cell
`[0][0]`; the sum overflows, and with wrapping arithmetic `multiply(F, F)`
leaves `-6246583658587674878` there. -/
theorem C5_counterexample :
    power base 46 = squared93 ∧
    multiply_chk squared93 squared93 = none ∧
    (multiply squared93 squared93).a00 = -6246583658587674878 ∧
    (squared93.toMatrix * squared93.toMatrix) 0 0 = 12200160415121876738 ∧
    (multiply squared93 squared93).toMatrix ≠ squared93.toMatrix * squared93.toMatrix := by
  have hp : power base 46 = squared93 := by
    rw [power_base_wrap, power_gmp_base_eq_fibMat 46 (by decide)]
    have e : fibMat (46 : Int).toNat = squared93 := by
      show fibMat 46 = squared93
      simp only [fibMat, squared93, fib_val 47 2971215073 (by norm_num),
        fib_val 46 1836311903 (by norm_num), fib_val (46 - 1) 1134903170 (by norm_num)]
      rfl
    rw [e]
    decide
  have hm : (multiply squared93 squared93).a00 = -6246583658587674878 := by decide
  have he : (squared93.toMatrix * squared93.toMatrix) 0 0 = 12200160415121876738 := by
    simp [squared93, Mat.toMatrix, Matrix.mul_fin_two]
  refine ⟨hp, by decide, hm, he, ?_⟩
  intro h
  have h00 := congrFun (congrFun h 0) 0
  rw [he] at h00
  simp only [Mat.toMatrix, Matrix.of_apply, Matrix.cons_val', Matrix.cons_val_zero,
    Matrix.empty_val', Matrix.cons_val_fin_one] at h00
  rw [hm] at h00
  exact absurd h00 (by decide)

/-- C5, amended: for every memory and every two array addresses `F` and `M`,
equal, overlapping or apart, every one of the four cells that `multiply`
and `multiply_gmp` store in `F` is computed from the values the cells had
before the call, and nothing else in memory changes; `multiply_gmp` leaves in
`F` the standard matrix product of the original `F` and `M` (the square of the
original `F` when `M` is `F`); the fixed-width `multiply` leaves that product
with every cell reduced modulo `2^64` to the signed 64-bit range, which is the
product itself whenever no multiplication or addition in the call overflows. -/
theorem C5_multiply_in_place (mem : Mem) (F M : Nat) :
    ((loadMat (multiply_gmp_mem mem F M) F).toMatrix
        = (loadMat mem F).toMatrix * (loadMat mem M).toMatrix ∧
      (loadMat (multiply_gmp_mem mem F F) F).toMatrix
        = (loadMat mem F).toMatrix * (loadMat mem F).toMatrix ∧
      loadMat (multiply_gmp_mem mem F M) F = multiply_gmp (loadMat mem F) (loadMat mem M) ∧
      ∀ a : Nat, outside F a → multiply_gmp_mem mem F M a = mem a) ∧
    (loadMat (multiply_mem mem F M) F
        = (multiply_gmp (loadMat mem F) (loadMat mem M)).wrap ∧
      (∀ R : Mat, multiply_chk (loadMat mem F) (loadMat mem M) = some R →
        loadMat (multiply_mem mem F M) F = R ∧
        R.toMatrix = (loadMat mem F).toMatrix * (loadMat mem M).toMatrix) ∧
      loadMat (multiply_mem mem F M) F = multiply (loadMat mem F) (loadMat mem M) ∧
      ∀ a : Nat, outside F a → multiply_mem mem F M a = mem a) := by
  refine ⟨⟨?_, ?_, loadMat_multiply_gmp_mem mem F M,
      fun a h => multiply_gmp_mem_outside mem F M a h⟩,
    ?_, ?_, loadMat_multiply_mem mem F M, fun a h => multiply_mem_outside mem F M a h⟩
  · rw [loadMat_multiply_gmp_mem, multiply_gmp_toMatrix]
  · rw [loadMat_multiply_gmp_mem, multiply_gmp_toMatrix]
  · rw [loadMat_multiply_mem, multiply_eq_wrap]
  · intro R hR
    obtain ⟨e, r⟩ := multiply_chk_some _ _ _ hR
    rw [loadMat_multiply_mem, multiply_eq_wrap, ← e, Mat.wrap_of_inRange _ r]
    exact ⟨rfl, by rw [e, multiply_gmp_toMatrix]⟩

/-- C5, amended, on the array `[[1, 2], [3, 4]]` passed as both arguments:
no overflow, and the array is left holding its square `[[7, 10], [15, 22]]`. -/
theorem C5_multiply_in_place_witness :
    multiply_chk (loadMat sampleMem 0) (loadMat sampleMem 0) = some ⟨7, 10, 15, 22⟩ ∧
    loadMat (multiply_mem sampleMem 0 0) 0 = ⟨7, 10, 15, 22⟩ :=
  ⟨by decide, ((C5_multiply_in_place sampleMem 0 0).2.2.1 ⟨7, 10, 15, 22⟩ (by decide)).1⟩

/-- C6: 92 is the exact ceiling of the fixed-width engine:
`fib 92 ≤ 2^63 - 1 < fib 93`, so for every n ≥ 93 (every C `int` from 93 on
included) `fib n` does not fit in a signed 64-bit integer, and the value that
`fast_fib n` returns with wrapping arithmetic, the representative of `fib n`
modulo `2^64`, fits and so differs from `fib n`; a value is returned, no error.
In particular `fast_fib 93 ≠ fib 93 = 12200160415121876738`.  With overflow
checked instead, the call fails for every such n: the overflow does occur. -/
theorem C6_ceiling_92 (n : Int) (h93 : 93 ≤ n) :
    (fib 92 ≤ 2 ^ 63 - 1 ∧ 2 ^ 63 - 1 < fib 93) ∧
    (¬ inRange64 (fib n.toNat) ∧ fast_fib n ≠ fib n.toNat ∧
      fast_fib n = wrap64 (fib n.toNat) ∧ inRange64 (fast_fib n) ∧
      fast_fib_chk n = none) ∧
    (fib 93 = 12200160415121876738 ∧ fast_fib 93 ≠ fib 93 ∧
      fast_fib 93 = -6246583658587674878) := by
  have hw : ∀ m : Int, 93 ≤ m → fast_fib m = wrap64 (fib m.toNat) := by
    intro m hm
    rw [fast_fib_eq_wrap, fast_fib_gmp_eq_fib m (by omega)]
  have hne : ∀ m : Int, 93 ≤ m → fast_fib m ≠ fib m.toNat := by
    intro m hm h
    have hr : inRange64 (fast_fib m) := by rw [hw m hm]; exact wrap64_inRange _
    rw [h] at hr
    exact fib_not_inRange _ (by omega) hr
  refine ⟨⟨?_, ?_⟩, ⟨fib_not_inRange _ (by omega), hne n h93, hw n h93, ?_,
    fast_fib_chk_none n h93⟩, fib_93, ?_, ?_⟩
  · rw [fib_92]; decide
  · rw [fib_93]; decide
  · rw [hw n h93]; exact wrap64_inRange _
  · exact hne 93 (by decide)
  · rw [hw 93 (by decide)]
    show wrap64 (fib 93) = -6246583658587674878
    rw [fib_93]
    decide

/-- C6 at n = 93. -/
theorem C6_ceiling_92_witness :
    (93 : Int) ≤ 93 ∧ fast_fib 93 ≠ fib (93 : Int).toNat :=
  ⟨by decide, (C6_ceiling_92 93 (by decide)).2.1.2.1⟩

/-- C7: `slow_fib n` returns n itself for every n ≤ 1, negative n included,
and the `long long` sum `slow_fib (n-1) + slow_fib (n-2)` for every n ≥ 2;
consequently for every n with 0 ≤ n ≤ 92 it returns `fib n`, and with overflow
checked it succeeds with `fib n`: no addition overflows. -/
theorem C7_slow_fib (n : Int) :
    (n ≤ 1 → slow_fib n = n ∧ slow_fib_chk n = some n) ∧
    (2 ≤ n → slow_fib n = add64 (slow_fib (n - 1)) (slow_fib (n - 2)) ∧
      slow_fib_chk n =
        (slow_fib_chk (n - 1)).bind fun a => (slow_fib_chk (n - 2)).bind fun b =>
          add_chk a b) ∧
    (0 ≤ n → n ≤ 92 → slow_fib n = fib n.toNat ∧ slow_fib_chk n = some (fib n.toNat)) := by
  refine ⟨?_, ?_, ?_⟩
  · intro h
    rw [slow_fib_unfold, slow_fib_chk_unfold, if_pos h, if_pos h]
    exact ⟨rfl, rfl⟩
  · intro h
    have h1 : ¬ n ≤ 1 := by omega
    constructor
    · rw [slow_fib_unfold n, if_neg h1]
    · rw [slow_fib_chk_unfold n, if_neg h1]
  · intro h0 h92
    exact ⟨slow_fib_eq_fib n h0 h92, slow_fib_chk_eq_fib n h0 h92⟩

/-- C7 at n = -3 (first part) and at n = 92 (last part). -/
theorem C7_slow_fib_witness :
    slow_fib (-3) = -3 ∧ slow_fib_chk 92 = some (fib (92 : Int).toNat) :=
  ⟨((C7_slow_fib (-3)).1 (by decide)).1, ((C7_slow_fib 92).2.2 (by decide) (by decide)).2⟩

/-- C8: the value computed by `fast_fib_gmp 1000` has exactly 209 decimal
digits: the `len` that `main` takes with `strlen` of `mpz_get_str` is 209. -/
theorem C8_fib_1000_digits :
    strlen (mpz_get_str (fast_fib_gmp 1000)) = 209 ∧ main_len 1000 = some 209 := by
  refine ⟨strlen_fib_1000, ?_⟩
  unfold main_len
  rw [if_neg (by decide), strlen_fib_1000]

/-- C9: `multiply` is associative: for all 2x2 matrices A, B, C, multiplying
(A x B) by C gives the same matrix as multiplying A by (B x C), over unbounded
integers (`multiply_gmp`) and under 64-bit wraparound (`multiply`). -/
theorem C9_multiply_assoc (A B C : Mat) :
    multiply_gmp (multiply_gmp A B) C = multiply_gmp A (multiply_gmp B C) ∧
    multiply (multiply A B) C = multiply A (multiply B C) :=
  ⟨multiply_gmp_assoc A B C, multiply_assoc A B C⟩

/-- C10: for every integer n ≥ 1, `power_gmp` applied with exponent n to a
matrix initialised to `[[1,1],[1,0]]` leaves exactly the matrix
`[[fib (n+1), fib n], [fib n, fib (n-1)]]`. -/
theorem C10_power_gmp_fib_cells (n : Int) (h1 : 1 ≤ n) :
    power_gmp ⟨1, 1, 1, 0⟩ n =
      ⟨fib (n + 1).toNat, fib n.toNat, fib n.toNat, fib (n - 1).toNat⟩ := by
  have h := power_gmp_base_eq_fibMat n h1
  have e1 : (n + 1).toNat = n.toNat + 1 := by omega
  have e2 : (n - 1).toNat = n.toNat - 1 := by omega
  rw [e1, e2]
  exact h

/-- C10 at n = 7. -/
theorem C10_power_gmp_fib_cells_witness :
    (1 : Int) ≤ 7 ∧
    power_gmp ⟨1, 1, 1, 0⟩ 7 =
      ⟨fib (7 + 1 : Int).toNat, fib (7 : Int).toNat, fib (7 : Int).toNat,
        fib (7 - 1 : Int).toNat⟩ :=
  ⟨by decide, C10_power_gmp_fib_cells 7 (by decide)⟩

/-! ### The operands of the `multiply` calls -/

theorem power_args_stop (F : Mat) (n : Int) (h : n = 0 ∨ n = 1) : power_args F n = [] := by
  rw [power_args, dif_pos h]

theorem power_args_step (F : Mat) (n : Int) (h : ¬ (n = 0 ∨ n = 1)) :
    power_args F n =
      if n.tmod 2 ≠ 0
      then power_args F (n.tdiv 2) ++
        [(power F (n.tdiv 2), power F (n.tdiv 2)),
         (multiply (power F (n.tdiv 2)) (power F (n.tdiv 2)), base)]
      else power_args F (n.tdiv 2) ++ [(power F (n.tdiv 2), power F (n.tdiv 2))] := by
  rw [power_args, dif_neg h]

theorem power_gmp_args_stop (F : Mat) (n : Int) (h : n = 0 ∨ n = 1) :
    power_gmp_args F n = [] := by
  rw [power_gmp_args, dif_pos h]

theorem power_gmp_args_step (F : Mat) (n : Int) (h : ¬ (n = 0 ∨ n = 1)) :
    power_gmp_args F n =
      if n.tmod 2 ≠ 0
      then power_gmp_args F (n.tdiv 2) ++
        [(power_gmp F (n.tdiv 2), power_gmp F (n.tdiv 2)),
         (multiply_gmp (power_gmp F (n.tdiv 2)) (power_gmp F (n.tdiv 2)), base)]
      else power_gmp_args F (n.tdiv 2) ++
        [(power_gmp F (n.tdiv 2), power_gmp F (n.tdiv 2))] := by
  rw [power_gmp_args, dif_neg h]

/-- The operands seen by the fixed-width engine are those of the exact engine,
wrapped. -/
theorem power_args_base_wrap (n : Int) :
    power_args base n = (power_gmp_args base n).map wrapPair := by
  induction n using power_induction with
  | stop n h => rw [power_args_stop _ _ h, power_gmp_args_stop _ _ h]; rfl
  | step n h ih =>
    rw [power_args_step _ _ h, power_gmp_args_step _ _ h, ih, power_base_wrap (n.tdiv 2),
      multiply_wrap]
    by_cases hodd : n.tmod 2 ≠ 0
    · rw [if_pos hodd, if_pos hodd]
      simp [wrapPair, base_wrap]
    · rw [if_neg hodd, if_neg hodd]
      simp [wrapPair]

/-! ### The shape of the powers of the step matrix -/

theorem base_fibForm : base.fibForm := by
  simp [Mat.fibForm, base]

/-- The exact product of two matrices of the shape has the shape. -/
theorem multiply_gmp_fibForm (F M : Mat) (hF : F.fibForm) (hM : M.fibForm) :
    (multiply_gmp F M).fibForm := by
  obtain ⟨f1, f2⟩ := hF
  obtain ⟨m1, m2⟩ := hM
  simp only [Mat.fibForm, multiply_gmp]
  rw [f2, m2, ← f1, ← m1]
  constructor <;> ring

/-- For every exponent, the matrix that the exact `power_gmp` leaves from the
step matrix has the shape, and so do both operands of every `multiply_gmp`
call it performs. -/
theorem power_gmp_base_fibForm (n : Int) :
    (power_gmp base n).fibForm ∧
      ∀ p ∈ power_gmp_args base n, p.1.fibForm ∧ p.2.fibForm := by
  induction n using power_induction with
  | stop n h =>
    rw [power_gmp_stop _ _ h, power_gmp_args_stop _ _ h]
    exact ⟨base_fibForm, fun p hp => absurd hp (List.not_mem_nil p)⟩
  | step n h ih =>
    obtain ⟨i1, i2⟩ := ih
    have hsq := multiply_gmp_fibForm _ _ i1 i1
    rw [power_gmp_step _ _ h, power_gmp_args_step _ _ h]
    by_cases hodd : n.tmod 2 ≠ 0
    · rw [if_pos hodd, if_pos hodd]
      refine ⟨multiply_gmp_fibForm _ _ hsq base_fibForm, ?_⟩
      intro p hp
      simp only [List.mem_append, List.mem_cons, List.mem_singleton, List.not_mem_nil,
        or_false] at hp
      rcases hp with hp | rfl | rfl
      · exact i2 p hp
      · exact ⟨i1, i1⟩
      · exact ⟨hsq, base_fibForm⟩
    · rw [if_neg hodd, if_neg hodd]
      refine ⟨hsq, ?_⟩
      intro p hp
      simp only [List.mem_append, List.mem_singleton] at hp
      rcases hp with hp | rfl
      · exact i2 p hp
      · exact ⟨i1, i1⟩

/-- The fixed-width `power` on the step matrix leaves the Fibonacci matrix of
its exponent, for every exponent from 1 to 91. -/
theorem power_base_eq_fibMat (n : Int) (h1 : 1 ≤ n) (h91 : n ≤ 91) :
    power base n = fibMat n.toNat :=
  (power_chk_some n _ (power_chk_base n h1 h91)).2.2

/-- C11, as stated, fails at n = 2 and at n = 4: when `power` returns on the
step matrix with exponent n - 1, cell `[1][1]` holds 0 at n = 2 and 1 at
n = 4, whereas `fib (n-1)` is 1 and 2. -/
theorem C11_counterexample :
    ((power_gmp base (2 - 1)).a11 = 0 ∧ (power base (2 - 1)).a11 = 0 ∧
      fib (2 - 1 : Int).toNat = 1) ∧
    ((power_gmp base (4 - 1)).a11 = 1 ∧ (power base (4 - 1)).a11 = 1 ∧
      fib (4 - 1 : Int).toNat = 2) := by
  have e3 : fibMat (3 : Int).toNat = ⟨3, 2, 2, 1⟩ := by
    show fibMat 3 = _
    simp [fibMat, fib]
  refine ⟨⟨?_, ?_, ?_⟩, ?_, ?_, ?_⟩
  · rw [power_gmp_stop _ _ (by decide)]; rfl
  · rw [power_stop _ _ (by decide)]; rfl
  · show fib 1 = 1
    simp [fib]
  · show (power_gmp base 3).a11 = 1
    rw [power_gmp_base_eq_fibMat 3 (by decide), e3]
  · show (power base 3).a11 = 1
    rw [power_base_eq_fibMat 3 (by decide) (by decide), e3]
  · show fib 3 = 2
    simp [fib]

/-- C11, amended: for every n ≥ 1, once `power` (called on the step matrix
with exponent n - 1) returns inside `fast_fib_gmp n`, cell `[0][0]` holds
`fib n`; for n = 1 the matrix is the untouched step matrix `[[1,1],[1,0]]`, and
for n ≥ 2 cells `[0][1]` and `[1][0]` hold `fib (n-1)` and cell `[1][1]` holds
`fib (n-2)`.  For n ≤ 92 the fixed-width `power` inside `fast_fib n` leaves the
same matrix. -/
theorem C11_state_matrix_cells (n : Int) (h1 : 1 ≤ n) :
    (power_gmp base (n - 1)).a00 = fib n.toNat ∧
    (n = 1 → power_gmp base (n - 1) = ⟨1, 1, 1, 0⟩) ∧
    (2 ≤ n → (power_gmp base (n - 1)).a01 = fib (n - 1).toNat ∧
      (power_gmp base (n - 1)).a10 = fib (n - 1).toNat ∧
      (power_gmp base (n - 1)).a11 = fib (n - 2).toNat) ∧
    (n ≤ 92 → power base (n - 1) = power_gmp base (n - 1)) := by
  refine ⟨?_, ?_, ?_, ?_⟩
  · have h := fast_fib_gmp_eq_fib n (by omega)
    unfold fast_fib_gmp at h
    rwa [if_neg (by omega)] at h
  · intro hn
    subst hn
    exact power_gmp_stop _ _ (by decide)
  · intro h2
    rw [power_gmp_base_eq_fibMat (n - 1) (by omega)]
    have e : (n - 2).toNat = (n - 1).toNat - 1 := by omega
    rw [e]
    exact ⟨rfl, rfl, rfl⟩
  · intro h92
    by_cases hn : n = 1
    · subst hn
      rw [power_stop _ _ (by decide), power_gmp_stop _ _ (by decide)]
    · rw [power_base_eq_fibMat (n - 1) (by omega) (by omega),
        power_gmp_base_eq_fibMat (n - 1) (by omega)]

/-- C11, amended, at n = 4: cell `[1][1]` holds `fib 2`. -/
theorem C11_state_matrix_cells_witness :
    (1 : Int) ≤ 4 ∧ (2 : Int) ≤ 4 ∧ (power_gmp base (4 - 1)).a11 = fib (4 - 2 : Int).toNat :=
  ⟨by decide, by decide, ((C11_state_matrix_cells 4 (by decide)).2.2.1 (by decide)).2.2⟩

/-- C12: starting from the step matrix `[[1,1],[1,0]]`, after every `multiply`
call that `power` performs, and in the final matrix, for every exponent n
(0 and negative exponents included), cells `[0][1]` and `[1][0]` of `F` are
equal; this holds in the arbitrary-precision engine and in the fixed-width
engine under 64-bit wraparound. -/
theorem C12_symmetry (n : Int) :
    ((∀ p ∈ power_gmp_args base n,
        (multiply_gmp p.1 p.2).a01 = (multiply_gmp p.1 p.2).a10) ∧
      (power_gmp base n).a01 = (power_gmp base n).a10) ∧
    ((∀ p ∈ power_args base n, (multiply p.1 p.2).a01 = (multiply p.1 p.2).a10) ∧
      (power base n).a01 = (power base n).a10) := by
  obtain ⟨hfin, hargs⟩ := power_gmp_base_fibForm n
  have hg : ∀ p ∈ power_gmp_args base n,
      (multiply_gmp p.1 p.2).a01 = (multiply_gmp p.1 p.2).a10 := fun p hp =>
    (multiply_gmp_fibForm _ _ (hargs p hp).1 (hargs p hp).2).1
  refine ⟨⟨hg, hfin.1⟩, ?_, ?_⟩
  · intro p hp
    rw [power_args_base_wrap, List.mem_map] at hp
    obtain ⟨q, hq, rfl⟩ := hp
    show (multiply q.1.wrap q.2.wrap).a01 = (multiply q.1.wrap q.2.wrap).a10
    rw [multiply_wrap]
    show wrap64 (multiply_gmp q.1 q.2).a01 = wrap64 (multiply_gmp q.1 q.2).a10
    rw [hg q hq]
  · rw [power_base_wrap]
    show wrap64 (power_gmp base n).a01 = wrap64 (power_gmp base n).a10
    rw [hfin.1]

/-- C12 at n = 5, on the first `multiply` call of `power(F, 5)`, which squares
the step matrix. -/
theorem C12_symmetry_witness :
    (base, base) ∈ power_args base 5 ∧ (multiply base base).a01 = (multiply base base).a10 := by
  have hm : (base, base) ∈ power_args base 5 := by
    rw [power_args_step _ 5 (by decide), if_pos (by decide)]
    have e : (5 : Int).tdiv 2 = 2 := by decide
    rw [e, power_args_step _ 2 (by decide), if_neg (by decide)]
    have e2 : (2 : Int).tdiv 2 = 1 := by decide
    rw [e2, power_args_stop _ 1 (by decide), power_stop _ 1 (by decide)]
    simp
  exact ⟨hm, (C12_symmetry 5).2.1 (base, base) hm⟩

/-! ### Counting the calls -/

theorem power_calls_stop (n : Int) (h : n = 0 ∨ n = 1) : power_calls n = 0 := by
  rw [power_calls, dif_pos h]

theorem power_calls_step (n : Int) (h : ¬ (n = 0 ∨ n = 1)) :
    power_calls n = 1 + power_calls (n.tdiv 2) := by
  rw [power_calls, dif_neg h]

/-- The `multiply` calls of one level of `power`: those of the nested call,
then one or two more. -/
theorem power_args_level (F : Mat) (n : Int) (h : ¬ (n = 0 ∨ n = 1)) :
    ∃ own : List (Mat × Mat),
      power_args F n = power_args F (n.tdiv 2) ++ own ∧ 1 ≤ own.length ∧ own.length ≤ 2 := by
  rw [power_args_step _ _ h]
  by_cases hodd : n.tmod 2 ≠ 0
  · rw [if_pos hodd]; exact ⟨_, rfl, by simp, by simp⟩
  · rw [if_neg hodd]; exact ⟨_, rfl, by simp, by simp⟩

theorem power_gmp_args_level (F : Mat) (n : Int) (h : ¬ (n = 0 ∨ n = 1)) :
    ∃ own : List (Mat × Mat),
      power_gmp_args F n = power_gmp_args F (n.tdiv 2) ++ own ∧
        1 ≤ own.length ∧ own.length ≤ 2 := by
  rw [power_gmp_args_step _ _ h]
  by_cases hodd : n.tmod 2 ≠ 0
  · rw [if_pos hodd]; exact ⟨_, rfl, by simp, by simp⟩
  · rw [if_neg hodd]; exact ⟨_, rfl, by simp, by simp⟩

/-- For n ≥ 1 the recursion of `power` is `⌊log₂ n⌋` calls deep, and the
number of `multiply` calls lies between that depth and twice it. -/
theorem power_counts (F : Mat) (n : Int) (h1 : 1 ≤ n) :
    power_calls n = Nat.log 2 n.toNat ∧
    Nat.log 2 n.toNat ≤ (power_args F n).length ∧
    (power_args F n).length ≤ 2 * Nat.log 2 n.toNat ∧
    Nat.log 2 n.toNat ≤ (power_gmp_args F n).length ∧
    (power_gmp_args F n).length ≤ 2 * Nat.log 2 n.toNat := by
  induction n using power_induction with
  | stop n h =>
    have hn : n = 1 := by omega
    subst hn
    rw [power_calls_stop _ h, power_args_stop _ _ h, power_gmp_args_stop _ _ h]
    simp
  | step n h ih =>
    have hd : n.tdiv 2 = n / 2 := tdiv_two_of_nonneg n (by omega)
    obtain ⟨o1, e1, l1, u1⟩ := power_args_level F n h
    obtain ⟨o2, e2, l2, u2⟩ := power_gmp_args_level F n h
    rw [power_calls_step _ h, e1, e2, List.length_append, List.length_append, hd]
    rw [hd] at ih
    obtain ⟨c, a1, a2, g1, g2⟩ := ih (by omega)
    have ht : (n / 2).toNat = n.toNat / 2 := by omega
    have hlog : Nat.log 2 n.toNat = Nat.log 2 (n.toNat / 2) + 1 :=
      Nat.log_of_one_lt_of_le (by decide) (by omega)
    rw [ht] at c a1 a2 g1 g2
    rw [hlog, c]
    omega

/-! ### `power` on a matrix other than the step matrix -/

/-- A `power` on any matrix in which no `multiply` overflows leaves what the
exact `power_gmp` leaves, and the wrapping `power` leaves the same. -/
theorem power_chk_some_any (F : Mat) (n : Int) (R : Mat) (h : power_chk F n = some R) :
    R = power_gmp F n ∧ power F n = R := by
  induction n using power_induction generalizing R with
  | stop n hn =>
    rw [power_chk_stop _ _ hn] at h
    rw [power_gmp_stop _ _ hn, power_stop _ _ hn]
    cases h
    exact ⟨rfl, rfl⟩
  | step n hn ih =>
    rw [power_chk_step _ _ hn] at h
    rw [power_gmp_step _ _ hn, power_step _ _ hn]
    simp only [Option.bind_eq_some] at h
    obtain ⟨F1, h1, F2, h2, h3⟩ := h
    obtain ⟨e1, w1⟩ := ih F1 h1
    obtain ⟨e2, r2⟩ := multiply_chk_some _ _ _ h2
    have w2 : multiply F1 F1 = F2 := by
      rw [multiply_eq_wrap, ← e2, Mat.wrap_of_inRange _ r2]
    rw [← e1, w1, ← e2, w2]
    by_cases hodd : n.tmod 2 ≠ 0
    · rw [if_pos hodd] at h3
      rw [if_pos hodd, if_pos hodd]
      obtain ⟨e3, r3⟩ := multiply_chk_some _ _ _ h3
      refine ⟨e3, ?_⟩
      rw [multiply_eq_wrap, ← e3, Mat.wrap_of_inRange _ r3]
    · rw [if_neg hodd] at h3
      rw [if_neg hodd, if_neg hodd]
      cases h3
      exact ⟨rfl, rfl⟩

/-- On an exponent that is a power of two, `power_gmp` only squares: it
leaves the matrix power of its argument, whatever the argument. -/
theorem power_gmp_two_pow (F : Mat) (k : Nat) :
    (power_gmp F (2 ^ k)).toMatrix = F.toMatrix ^ (2 ^ k) := by
  induction k with
  | zero =>
    rw [power_gmp_stop _ _ (by simp)]
    simp
  | succ k ih =>
    have hpos : (0 : Int) < 2 ^ k := by positivity
    have hne : ¬ ((2 : Int) ^ (k + 1) = 0 ∨ (2 : Int) ^ (k + 1) = 1) := by
      rw [pow_succ]; omega
    have hd : ((2 : Int) ^ (k + 1)).tdiv 2 = 2 ^ k := by
      rw [tdiv_two_of_nonneg _ (by positivity), pow_succ]
      omega
    have hm : ((2 : Int) ^ (k + 1)).tmod 2 = 0 := by
      rw [tmod_two_of_nonneg _ (by positivity), pow_succ]
      omega
    rw [power_gmp_step _ _ hne, hd, hm, if_neg (by simp), multiply_gmp_toMatrix, ih,
      ← pow_add]
    congr 1
    rw [pow_succ]
    omega

/-- C13: for every integer n ≥ 1, a call `power(F, n)` makes exactly
`⌊log₂ n⌋` nested recursive calls; each level that does not return at once
performs, after its nested call, one or two `multiply` calls, so at most two;
the total number of `multiply` calls is at most `2 * ⌊log₂ n⌋`; for n = 0 and
n = 1 no `multiply` call is made.  The same holds for `power_gmp`. -/
theorem C13_power_call_counts (F : Mat) (n : Int) (h1 : 1 ≤ n) :
    power_calls n = Nat.log 2 n.toNat ∧
    ((power_args F n).length ≤ 2 * Nat.log 2 n.toNat ∧
      (power_gmp_args F n).length ≤ 2 * Nat.log 2 n.toNat) ∧
    (¬ (n = 0 ∨ n = 1) →
      (∃ own : List (Mat × Mat),
        power_args F n = power_args F (n.tdiv 2) ++ own ∧ own.length ≤ 2) ∧
      (∃ own : List (Mat × Mat),
        power_gmp_args F n = power_gmp_args F (n.tdiv 2) ++ own ∧ own.length ≤ 2)) ∧
    (power_args F 0 = [] ∧ power_args F 1 = [] ∧
      power_gmp_args F 0 = [] ∧ power_gmp_args F 1 = [] ∧
      power_calls 0 = 0 ∧ power_calls 1 = 0) := by
  obtain ⟨c, _, a, _, g⟩ := power_counts F n h1
  refine ⟨c, ⟨a, g⟩, ?_, power_args_stop _ _ (by decide), power_args_stop _ _ (by decide),
    power_gmp_args_stop _ _ (by decide), power_gmp_args_stop _ _ (by decide),
    power_calls_stop _ (by decide), power_calls_stop _ (by decide)⟩
  intro h
  obtain ⟨o1, e1, _, u1⟩ := power_args_level F n h
  obtain ⟨o2, e2, _, u2⟩ := power_gmp_args_level F n h
  exact ⟨⟨o1, e1, u1⟩, o2, e2, u2⟩

/-- C13 at n = 100 on the step matrix: six nested calls, `⌊log₂ 100⌋ = 6`. -/
theorem C13_power_call_counts_witness :
    (1 : Int) ≤ 100 ∧ power_calls 100 = Nat.log 2 (100 : Int).toNat ∧
    Nat.log 2 (100 : Int).toNat = 6 := by
  refine ⟨by decide, (C13_power_call_counts base 100 (by decide)).1, ?_⟩
  show Nat.log 2 100 = 6
  simp [Nat.log]

/-- C14, as stated, fails on a matrix other than the step matrix at an odd
exponent: on twice the identity with n = 3, `power` squares it to four times
the identity and then multiplies by the step matrix, leaving
`[[4,4],[4,0]]`; the third power is eight times the identity. -/
theorem C14_counterexample :
    power_gmp twiceId 3 = ⟨4, 4, 4, 0⟩ ∧ power twiceId 3 = ⟨4, 4, 4, 0⟩ ∧
    power_chk twiceId 3 = some ⟨4, 4, 4, 0⟩ ∧
    twiceId.toMatrix ^ (3 : Int).toNat = !![8, 0; 0, 8] ∧
    (power_gmp twiceId 3).toMatrix ≠ twiceId.toMatrix ^ (3 : Int).toNat ∧
    (power twiceId 3).toMatrix ≠ twiceId.toMatrix ^ (3 : Int).toNat := by
  have hd : (3 : Int).tdiv 2 = 1 := by decide
  have hc : power_chk twiceId 3 = some ⟨4, 4, 4, 0⟩ := by
    rw [power_chk_step _ _ (by decide), hd, power_chk_stop _ _ (by decide)]
    decide
  obtain ⟨eg, ep⟩ := power_chk_some_any _ _ _ hc
  have hpow : twiceId.toMatrix ^ (3 : Int).toNat = !![8, 0; 0, 8] := by
    show twiceId.toMatrix ^ 3 = _
    simp [twiceId, Mat.toMatrix, pow_succ, Matrix.mul_fin_two, Matrix.one_fin_two]
  have hne : (⟨4, 4, 4, 0⟩ : Mat).toMatrix ≠ twiceId.toMatrix ^ (3 : Int).toNat := by
    rw [hpow]
    intro h
    have h01 := congrFun (congrFun h 0) 1
    simp [Mat.toMatrix] at h01
  refine ⟨eg.symm, ep, hc, hpow, ?_, ?_⟩
  · rw [← eg]; exact hne
  · rw [ep]; exact hne

/-- C14, amended: for every 2x2 integer matrix F and every integer n ≥ 2,
`power(F, n)` leaves the square of what `power(F, n / 2)` leaves, times the
step matrix `[[1,1],[1,0]]` (not F) when n is odd, and for n = 1 it leaves F.
This is the n-th matrix power of the initial F when F is the step matrix, and,
for any F, when n is a power of two.  Stated for `power_gmp`; the fixed-width
`power` leaves the same matrix whenever no `multiply` in it overflows. -/
theorem C14_power_general (F : Mat) (n : Int) (h1 : 1 ≤ n) :
    (n = 1 → power_gmp F n = F) ∧
    (2 ≤ n →
      (power_gmp F n).toMatrix =
        (power_gmp F (n.tdiv 2)).toMatrix ^ 2 *
          (if n.tmod 2 ≠ 0 then base.toMatrix else 1)) ∧
    (F = base → (power_gmp F n).toMatrix = F.toMatrix ^ n.toNat) ∧
    (∀ k : Nat, n = 2 ^ k → (power_gmp F n).toMatrix = F.toMatrix ^ n.toNat) ∧
    (∀ R : Mat, power_chk F n = some R → power F n = power_gmp F n) := by
  refine ⟨?_, ?_, ?_, ?_, ?_⟩
  · intro hn
    exact power_gmp_stop _ _ (Or.inr hn)
  · intro h2
    rw [power_gmp_step _ _ (by omega)]
    by_cases hodd : n.tmod 2 ≠ 0
    · rw [if_pos hodd, if_pos hodd, multiply_gmp_toMatrix, multiply_gmp_toMatrix, pow_two]
    · rw [if_neg hodd, if_neg hodd, multiply_gmp_toMatrix, pow_two, mul_one]
  · intro hF
    subst hF
    exact power_gmp_base_toMatrix n h1
  · intro k hk
    subst hk
    have e : ((2 : Int) ^ k).toNat = 2 ^ k := by
      have e2 : (2 : Int) ^ k = ((2 ^ k : Nat) : Int) := by push_cast; rfl
      rw [e2]
      exact Int.toNat_natCast _
    rw [power_gmp_two_pow, e]
  · intro R hR
    obtain ⟨e, w⟩ := power_chk_some_any F n R hR
    rw [w, e]

/-- C14, amended, on twice the identity at n = 4: the fourth power, sixteen
times the identity. -/
theorem C14_power_general_witness :
    (1 : Int) ≤ 4 ∧ (4 : Int) = 2 ^ 2 ∧
    (power_gmp twiceId 4).toMatrix = twiceId.toMatrix ^ (4 : Int).toNat :=
  ⟨by decide, by decide, (C14_power_general twiceId 4 (by decide)).2.2.2.1 2 (by decide)⟩

/-! ### The lifecycle of the big integers -/

theorem runOps_step (op : Heap → Option Heap) (ops : List (Heap → Option Heap))
    (h h' : Heap) (e : op h = some h') : runOps (op :: ops) h = runOps ops h' := by
  rw [runOps, e, Option.some_bind]

theorem runOps_init (x : Nat) (ops : List (Heap → Option Heap)) (L : List Nat) (i c : Nat)
    (hx : x ∉ L) :
    runOps (mpz_init x :: ops) ⟨L, i, c⟩ = runOps ops ⟨x :: L, i + 1, c⟩ := by
  rw [runOps, mpz_init, if_neg hx, Option.some_bind]

theorem runOps_use (xs : List Nat) (ops : List (Heap → Option Heap)) (L : List Nat)
    (i c : Nat) (hx : ∀ x ∈ xs, x ∈ L) :
    runOps (mpz_use xs :: ops) ⟨L, i, c⟩ = runOps ops ⟨L, i, c⟩ := by
  rw [runOps, mpz_use, if_pos hx, Option.some_bind]

theorem runOps_clear (x : Nat) (ops : List (Heap → Option Heap)) (L : List Nat) (i c : Nat)
    (hx : x ∈ L) :
    runOps (mpz_clear x :: ops) ⟨L, i, c⟩ = runOps ops ⟨L.erase x, i, c + 1⟩ := by
  rw [runOps, mpz_clear, if_pos hx, Option.some_bind]

/-- Called with live operands and a free frame, `multiply_gmp` initialises six
variables, uses only live ones, clears those six, and leaves the live set as
it found it. -/
theorem multiply_gmp_res_ok (F M : MatIds) (sp : Nat) (L : List Nat) (i c : Nat)
    (hF : F.liveIn L) (hM : M.liveIn L) (hb : belowSp L sp) :
    multiply_gmp_res F M sp ⟨L, i, c⟩ = some ⟨L, i + 6, c + 6⟩ := by
  obtain ⟨f0, f1, f2, f3⟩ := hF
  obtain ⟨m0, m1, m2, m3⟩ := hM
  have n0 : sp ∉ L := fun hx => by have := hb _ hx; omega
  have n1 : sp + 1 ∉ L := fun hx => by have := hb _ hx; omega
  have n2 : sp + 2 ∉ L := fun hx => by have := hb _ hx; omega
  have n3 : sp + 3 ∉ L := fun hx => by have := hb _ hx; omega
  have n4 : sp + 4 ∉ L := fun hx => by have := hb _ hx; omega
  have n5 : sp + 5 ∉ L := fun hx => by have := hb _ hx; omega
  unfold multiply_gmp_res
  rw [runOps_init, runOps_init, runOps_init, runOps_init, runOps_init, runOps_init,
    runOps_use, runOps_use, runOps_use, runOps_use, runOps_use, runOps_use, runOps_use,
    runOps_use, runOps_use, runOps_use, runOps_use, runOps_use, runOps_use, runOps_use,
    runOps_use, runOps_use,
    runOps_clear, runOps_clear, runOps_clear, runOps_clear, runOps_clear, runOps_clear]
  rotate_left
  all_goals try (simp [n0, n1, n2, n3, n4, n5, f0, f1, f2, f3, m0, m1, m2, m3]; done)
  simp [runOps, List.erase_cons]

theorem power_gmp_res_stop (F : MatIds) (n : Int) (sp : Nat) (h : Heap)
    (hn : n = 0 ∨ n = 1) : power_gmp_res F n sp h = some h := by
  rw [power_gmp_res, dif_pos hn]

theorem power_gmp_res_step (F : MatIds) (n : Int) (sp : Nat) (hn : ¬ (n = 0 ∨ n = 1)) :
    power_gmp_res F n sp =
      runOps [
        mpz_init sp, mpz_init (sp + 1), mpz_init (sp + 2), mpz_init (sp + 3),
        power_gmp_res F (n.tdiv 2) (sp + 4),
        multiply_gmp_res F F (sp + 4),
        if n.tmod 2 ≠ 0 then multiply_gmp_res F ⟨sp, sp + 1, sp + 2, sp + 3⟩ (sp + 4) else some,
        mpz_clear sp, mpz_clear (sp + 1), mpz_clear (sp + 2), mpz_clear (sp + 3)] := by
  rw [power_gmp_res, dif_neg hn]

/-- Called with a live `F` and a free frame, `power_gmp` succeeds for every
exponent, makes as many clears as initialisations, and leaves the live set as
it found it. -/
theorem power_gmp_res_ok (F : MatIds) (n : Int) :
    ∀ (sp : Nat) (L : List Nat) (i c : Nat), F.liveIn L → belowSp L sp →
      ∃ k : Nat, power_gmp_res F n sp ⟨L, i, c⟩ = some ⟨L, i + k, c + k⟩ := by
  induction n using power_induction with
  | stop n hn =>
    intro sp L i c _ _
    exact ⟨0, power_gmp_res_stop F n sp _ hn⟩
  | step n hn ih =>
    intro sp L i c hF hb
    obtain ⟨f0, f1, f2, f3⟩ := hF
    have n0 : sp ∉ L := fun hx => by have := hb _ hx; omega
    have n1 : sp + 1 ∉ L := fun hx => by have := hb _ hx; omega
    have n2 : sp + 2 ∉ L := fun hx => by have := hb _ hx; omega
    have n3 : sp + 3 ∉ L := fun hx => by have := hb _ hx; omega
    have hF' : F.liveIn ((sp + 3) :: (sp + 2) :: (sp + 1) :: sp :: L) := by
      simp [MatIds.liveIn, f0, f1, f2, f3]
    have hM' : MatIds.liveIn ⟨sp, sp + 1, sp + 2, sp + 3⟩
        ((sp + 3) :: (sp + 2) :: (sp + 1) :: sp :: L) := by
      simp [MatIds.liveIn]
    have hb' : belowSp ((sp + 3) :: (sp + 2) :: (sp + 1) :: sp :: L) (sp + 4) := by
      intro x hx
      simp only [List.mem_cons] at hx
      rcases hx with rfl | rfl | rfl | rfl | hx
      · omega
      · omega
      · omega
      · omega
      · have := hb _ hx; omega
    obtain ⟨k, hk⟩ := ih (sp + 4) _ (i + 1 + 1 + 1 + 1) c hF' hb'
    have hsq := multiply_gmp_res_ok F F (sp + 4) _ (i + 1 + 1 + 1 + 1 + k) (c + k) hF' hF' hb'
    rw [power_gmp_res_step _ _ _ hn, runOps_init _ _ _ _ _ n0,
      runOps_init _ _ _ _ _ (by simp [n1]), runOps_init _ _ _ _ _ (by simp [n2]),
      runOps_init _ _ _ _ _ (by simp [n3]), runOps_step _ _ _ _ hk, runOps_step _ _ _ _ hsq]
    by_cases hodd : n.tmod 2 ≠ 0
    · have hmu := multiply_gmp_res_ok F ⟨sp, sp + 1, sp + 2, sp + 3⟩ (sp + 4) _
        (i + 1 + 1 + 1 + 1 + k + 6) (c + k + 6) hF' hM' hb'
      refine ⟨k + 16, ?_⟩
      rw [if_pos hodd, runOps_step _ _ _ _ hmu, runOps_clear _ _ _ _ _ (by simp),
        runOps_clear _ _ _ _ _ (by simp), runOps_clear _ _ _ _ _ (by simp),
        runOps_clear _ _ _ _ _ (by simp)]
      simp [runOps, List.erase_cons]
      omega
    · refine ⟨k + 10, ?_⟩
      rw [if_neg hodd, runOps_step _ _ _ _ (rfl : some _ = some _),
        runOps_clear _ _ _ _ _ (by simp),
        runOps_clear _ _ _ _ _ (by simp), runOps_clear _ _ _ _ _ (by simp),
        runOps_clear _ _ _ _ _ (by simp)]
      simp [runOps, List.erase_cons]
      omega

/-- Called with a live `result` and a free frame, `fast_fib_gmp` succeeds for
every index, makes as many clears as initialisations, and leaves the live set
as it found it. -/
theorem fast_fib_gmp_res_ok (result : Nat) (n : Int) (sp : Nat) (L : List Nat) (i c : Nat)
    (hr : result ∈ L) (hb : belowSp L sp) :
    ∃ k : Nat, fast_fib_gmp_res result n sp ⟨L, i, c⟩ = some ⟨L, i + k, c + k⟩ := by
  unfold fast_fib_gmp_res
  by_cases h0 : n = 0
  · refine ⟨0, ?_⟩
    rw [if_pos h0, mpz_use, if_pos (by simpa using hr)]
    rfl
  · have n0 : sp ∉ L := fun hx => by have := hb _ hx; omega
    have n1 : sp + 1 ∉ L := fun hx => by have := hb _ hx; omega
    have n2 : sp + 2 ∉ L := fun hx => by have := hb _ hx; omega
    have n3 : sp + 3 ∉ L := fun hx => by have := hb _ hx; omega
    have hF' : MatIds.liveIn ⟨sp, sp + 1, sp + 2, sp + 3⟩
        ((sp + 3) :: (sp + 2) :: (sp + 1) :: sp :: L) := by
      simp [MatIds.liveIn]
    have hb' : belowSp ((sp + 3) :: (sp + 2) :: (sp + 1) :: sp :: L) (sp + 4) := by
      intro x hx
      simp only [List.mem_cons] at hx
      rcases hx with rfl | rfl | rfl | rfl | hx
      · omega
      · omega
      · omega
      · omega
      · have := hb _ hx; omega
    obtain ⟨k, hk⟩ := power_gmp_res_ok ⟨sp, sp + 1, sp + 2, sp + 3⟩ (n - 1) (sp + 4) _
      (i + 1 + 1 + 1 + 1) c hF' hb'
    refine ⟨k + 4, ?_⟩
    rw [if_neg h0]
    show runOps [mpz_init sp, mpz_init (sp + 1), mpz_init (sp + 2), mpz_init (sp + 3),
      power_gmp_res ⟨sp, sp + 1, sp + 2, sp + 3⟩ (n - 1) (sp + 4),
      mpz_use [result, sp],
      mpz_clear sp, mpz_clear (sp + 1), mpz_clear (sp + 2), mpz_clear (sp + 3)] ⟨L, i, c⟩ = _
    rw [runOps_init _ _ _ _ _ n0,
      runOps_init _ _ _ _ _ (by simp [n1]), runOps_init _ _ _ _ _ (by simp [n2]),
      runOps_init _ _ _ _ _ (by simp [n3]), runOps_step _ _ _ _ hk,
      runOps_use _ _ _ _ _ (by simp [hr]), runOps_clear _ _ _ _ _ (by simp),
      runOps_clear _ _ _ _ _ (by simp), runOps_clear _ _ _ _ _ (by simp),
      runOps_clear _ _ _ _ _ (by simp)]
    simp [runOps, List.erase_cons]
    omega

/-- C15: for every n (every n ≥ 0 included), the allocate/release discipline
of the arbitrary-precision engine is balanced.  Run from any state in which
`result` is live and the frame is free, `fast_fib_gmp(result, n)` completes
without initialising a live variable, clearing a variable that is not live, or
using one that is not live; the variables live at the end are those live at
the start, so each variable initialised in `fast_fib_gmp`, `power_gmp` and
`multiply_gmp` is cleared exactly once, and the initialisations and the clears
made are equal in number, k.  The early returns make none: `fast_fib_gmp` at
n = 0, `power_gmp` at exponents 0 and 1.  `power_gmp` and `multiply_gmp` are
balanced on their own. -/
theorem C15_lifecycle_balanced (n : Int) (result sp : Nat) (L : List Nat) (i c : Nat)
    (hr : result ∈ L) (hb : belowSp L sp) :
    (∃ k : Nat, fast_fib_gmp_res result n sp ⟨L, i, c⟩ = some ⟨L, i + k, c + k⟩) ∧
    fast_fib_gmp_res result 0 sp ⟨L, i, c⟩ = some ⟨L, i, c⟩ ∧
    (∀ F : MatIds, power_gmp_res F 0 sp ⟨L, i, c⟩ = some ⟨L, i, c⟩ ∧
      power_gmp_res F 1 sp ⟨L, i, c⟩ = some ⟨L, i, c⟩) ∧
    (∀ (F : MatIds) (m : Int), F.liveIn L →
      ∃ k : Nat, power_gmp_res F m sp ⟨L, i, c⟩ = some ⟨L, i + k, c + k⟩) ∧
    (∀ F M : MatIds, F.liveIn L → M.liveIn L →
      multiply_gmp_res F M sp ⟨L, i, c⟩ = some ⟨L, i + 6, c + 6⟩) := by
  refine ⟨fast_fib_gmp_res_ok result n sp L i c hr hb, ?_, ?_, ?_, ?_⟩
  · unfold fast_fib_gmp_res
    rw [if_pos rfl, mpz_use, if_pos (by simpa using hr)]
  · intro F
    exact ⟨power_gmp_res_stop F 0 sp _ (by decide), power_gmp_res_stop F 1 sp _ (by decide)⟩
  · intro F m hF
    exact power_gmp_res_ok F m sp L i c hF hb
  · intro F M hF hM
    exact multiply_gmp_res_ok F M sp L i c hF hM hb

/-- C15 at n = 1000, from the state in which `main` calls: `result`, in slot 0,
is the one live variable, initialised once. -/
theorem C15_lifecycle_balanced_witness :
    (0 ∈ [0]) ∧ belowSp [0] 1 ∧
    ∃ k : Nat, fast_fib_gmp_res 0 1000 1 ⟨[0], 1, 0⟩ = some ⟨[0], 1 + k, 0 + k⟩ :=
  have hr : (0 : Nat) ∈ [0] := by simp
  have hb : belowSp [0] 1 := by
    intro x hx
    simp only [List.mem_singleton] at hx
    omega
  ⟨hr, hb, (C15_lifecycle_balanced 1000 0 1 [0] 1 0 hr hb).1⟩

/-! ### The values that `multiply` evaluates up to index 92 -/

/-- The fixed-width product of two Fibonacci matrices whose indices add up to
at most 91 is exact. -/
theorem multiply_fibMat (a b : Nat) (ha : 1 ≤ a) (hb : 1 ≤ b) (hab : a + b ≤ 91) :
    multiply (fibMat a) (fibMat b) = fibMat (a + b) := by
  rw [multiply_eq_wrap, multiply_gmp_fibMat a b ha hb,
    Mat.wrap_of_inRange _ (fibMat_inRange _ hab)]

/-- During `power` on the step matrix with an exponent from 0 to 91, both
operands of every `multiply` call are Fibonacci matrices, of indices that add
up to at most the exponent. -/
theorem power_args_base_fibMat (m : Int) (h0 : 0 ≤ m) (h91 : m ≤ 91) :
    ∀ p ∈ power_args base m, ∃ a b : Nat,
      1 ≤ a ∧ 1 ≤ b ∧ a + b ≤ m.toNat ∧ p = (fibMat a, fibMat b) := by
  induction m using power_induction with
  | stop m h =>
    rw [power_args_stop _ _ h]
    intro p hp
    exact absurd hp (List.not_mem_nil p)
  | step m h ih =>
    have hd : m.tdiv 2 = m / 2 := tdiv_two_of_nonneg m h0
    have hm : m.tmod 2 = m % 2 := tmod_two_of_nonneg m h0
    rw [power_args_step _ _ h, hd, hm, power_base_eq_fibMat (m / 2) (by omega) (by omega),
      multiply_fibMat _ _ (by omega) (by omega) (by omega)]
    rw [hd] at ih
    have ih2 := ih (by omega) (by omega)
    have hsq : ∃ a b : Nat, 1 ≤ a ∧ 1 ≤ b ∧ a + b ≤ m.toNat ∧
        (fibMat (m / 2).toNat, fibMat (m / 2).toNat) = (fibMat a, fibMat b) :=
      ⟨_, _, by omega, by omega, by omega, rfl⟩
    have hold : ∀ p ∈ power_args base (m / 2), ∃ a b : Nat,
        1 ≤ a ∧ 1 ≤ b ∧ a + b ≤ m.toNat ∧ p = (fibMat a, fibMat b) := by
      intro p hp
      obtain ⟨a, b, ha, hb, hab, e⟩ := ih2 p hp
      exact ⟨a, b, ha, hb, by omega, e⟩
    by_cases hodd : m % 2 ≠ 0
    · rw [if_pos hodd]
      intro p hp
      simp only [List.mem_append, List.mem_cons, List.mem_singleton, List.not_mem_nil,
        or_false] at hp
      rcases hp with hp | rfl | rfl
      · exact hold p hp
      · exact hsq
      · exact ⟨(m / 2).toNat + (m / 2).toNat, 1, by omega, by omega, by omega,
          by rw [base_eq_fibMat]⟩
    · rw [if_neg hodd]
      intro p hp
      simp only [List.mem_append, List.mem_singleton] at hp
      rcases hp with hp | rfl
      · exact hold p hp
      · exact hsq

theorem fibMat_cells_bound (a N : Nat) (ha : 1 ≤ a) (hN : a + 1 ≤ N) :
    ∀ x ∈ (fibMat a).cells, 0 ≤ x ∧ x ≤ fib N := by
  intro x hx
  simp only [Mat.cells, fibMat, List.mem_cons, List.mem_singleton, List.not_mem_nil,
    or_false] at hx
  rcases hx with rfl | rfl | rfl | rfl
  · exact ⟨fib_nonneg _, fib_mono hN⟩
  · exact ⟨fib_nonneg _, fib_mono (by omega)⟩
  · exact ⟨fib_nonneg _, fib_mono (by omega)⟩
  · exact ⟨fib_nonneg _, fib_mono (by omega)⟩

/-- Every product and every sum evaluated by `multiply` on two Fibonacci
matrices is non-negative and at most the largest cell of the result. -/
theorem multiply_vals_fibMat (a b N : Nat) (ha : 1 ≤ a) (hb : 1 ≤ b) (hN : a + b + 1 ≤ N) :
    ∀ v ∈ multiply_vals (fibMat a) (fibMat b), 0 ≤ v ∧ v ≤ fib N := by
  have hc := fibMat_cells_bound (a + b) N (by omega) hN
  rw [← multiply_gmp_fibMat a b ha hb] at hc
  obtain ⟨f0, f1, f2, f3⟩ := fibMat_nonneg a
  obtain ⟨m0, m1, m2, m3⟩ := fibMat_nonneg b
  have s0 : (fibMat a).a00 * (fibMat b).a00 + (fibMat a).a01 * (fibMat b).a10 ≤ fib N :=
    (hc _ (by simp [Mat.cells, multiply_gmp])).2
  have s1 : (fibMat a).a00 * (fibMat b).a01 + (fibMat a).a01 * (fibMat b).a11 ≤ fib N :=
    (hc _ (by simp [Mat.cells, multiply_gmp])).2
  have s2 : (fibMat a).a10 * (fibMat b).a00 + (fibMat a).a11 * (fibMat b).a10 ≤ fib N :=
    (hc _ (by simp [Mat.cells, multiply_gmp])).2
  have s3 : (fibMat a).a10 * (fibMat b).a01 + (fibMat a).a11 * (fibMat b).a11 ≤ fib N :=
    (hc _ (by simp [Mat.cells, multiply_gmp])).2
  have p0 := mul_nonneg f0 m0
  have p1 := mul_nonneg f1 m2
  have p2 := mul_nonneg f0 m1
  have p3 := mul_nonneg f1 m3
  have p4 := mul_nonneg f2 m0
  have p5 := mul_nonneg f3 m2
  have p6 := mul_nonneg f2 m1
  have p7 := mul_nonneg f3 m3
  intro v hv
  simp only [multiply_vals, List.mem_cons, List.mem_singleton, List.not_mem_nil,
    or_false] at hv
  rcases hv with rfl | rfl | rfl | rfl | rfl | rfl | rfl | rfl | rfl | rfl | rfl | rfl <;>
    constructor <;> linarith

theorem inRange64_of_le_fib (v : Int) (k : Nat) (h0 : 0 ≤ v) (hv : v ≤ fib k) (hk : k ≤ 92) :
    inRange64 v := by
  have h := fib_inRange k hk
  unfold inRange64 INT64_MIN INT64_MAX at *
  omega

/-- C16: for every n with 0 ≤ n ≤ 92, every product and every sum that
`multiply` evaluates during `fast_fib n` lies between 0 and `fib n`, hence
within the signed 64-bit range; the cells of both operands and of the result of
every `multiply` call, and the cells of the final matrix, lie between 0 and
`fib n` too; so no signed overflow occurs anywhere in the computation: with
overflow checked, `fast_fib n` succeeds with `fib n`. -/
theorem C16_no_intermediate_overflow (n : Int) (h0 : 0 ≤ n) (h92 : n ≤ 92) :
    (∀ p ∈ fast_fib_args n, ∀ v ∈ multiply_vals p.1 p.2,
      0 ≤ v ∧ v ≤ fib n.toNat ∧ inRange64 v) ∧
    (∀ p ∈ fast_fib_args n, ∀ x ∈ p.1.cells ++ p.2.cells ++ (multiply p.1 p.2).cells,
      0 ≤ x ∧ x ≤ fib n.toNat) ∧
    (1 ≤ n → ∀ x ∈ (power base (n - 1)).cells, 0 ≤ x ∧ x ≤ fib n.toNat) ∧
    fast_fib_chk n = some (fib n.toNat) := by
  have hargs : ∀ p ∈ fast_fib_args n, ∃ a b : Nat,
      1 ≤ a ∧ 1 ≤ b ∧ a + b + 1 ≤ n.toNat ∧ a + b ≤ 91 ∧ p = (fibMat a, fibMat b) := by
    intro p hp
    unfold fast_fib_args at hp
    by_cases hz : n = 0
    · rw [if_pos hz] at hp
      exact absurd hp (List.not_mem_nil p)
    · rw [if_neg hz] at hp
      obtain ⟨a, b, ha, hb, hab, e⟩ :=
        power_args_base_fibMat (n - 1) (by omega) (by omega) p hp
      exact ⟨a, b, ha, hb, by omega, by omega, e⟩
  refine ⟨?_, ?_, ?_, fast_fib_chk_eq_fib n h0 h92⟩
  · intro p hp v hv
    obtain ⟨a, b, ha, hb, hab, _, rfl⟩ := hargs p hp
    obtain ⟨v0, v1⟩ := multiply_vals_fibMat a b n.toNat ha hb hab v hv
    exact ⟨v0, v1, inRange64_of_le_fib v n.toNat v0 v1 (by omega)⟩
  · intro p hp x hx
    obtain ⟨a, b, ha, hb, hab, h91, rfl⟩ := hargs p hp
    rw [multiply_fibMat a b ha hb h91] at hx
    simp only [List.mem_append] at hx
    rcases hx with (hx | hx) | hx
    · exact fibMat_cells_bound a n.toNat ha (by omega) x hx
    · exact fibMat_cells_bound b n.toNat hb (by omega) x hx
    · exact fibMat_cells_bound (a + b) n.toNat (by omega) hab x hx
  · intro h1 x hx
    by_cases hn : n = 1
    · subst hn
      rw [power_stop _ _ (by decide)] at hx
      have hf : fib (1 : Int).toNat = 1 := by
        show fib 1 = 1
        simp [fib]
      rw [hf]
      simp only [Mat.cells, base, List.mem_cons, List.mem_singleton, List.not_mem_nil,
        or_false] at hx
      omega
    · rw [power_base_eq_fibMat (n - 1) (by omega) (by omega)] at hx
      exact fibMat_cells_bound _ n.toNat (by omega) (by omega) x hx

/-- C16 at n = 92: the cells of the final matrix. -/
theorem C16_no_intermediate_overflow_witness :
    (0 : Int) ≤ 92 ∧ (92 : Int) ≤ 92 ∧ (1 : Int) ≤ 92 ∧
    ∀ x ∈ (power base (92 - 1)).cells, 0 ≤ x ∧ x ≤ fib (92 : Int).toNat :=
  ⟨by decide, by decide, by decide,
    (C16_no_intermediate_overflow 92 (by decide) (by decide)).2.2.1 (by decide)⟩

/-- C17: the two engines are the same computation up to integer width.  Each
fixed-width `multiply` is the exact `multiply_gmp` with every cell reduced to
its signed 64-bit representative, each `power` on the step matrix likewise,
and for every n ≥ 0 the fixed-width `fast_fib n`, with wrapping arithmetic, is
the signed 64-bit representative of `fast_fib_gmp n` modulo `2^64`: in range
and congruent to it.  Hence the two engines return equal values for every
0 ≤ n ≤ 92. -/
theorem C17_engines_agree_mod_2_64 (n : Int) (h0 : 0 ≤ n) :
    fast_fib n = wrap64 (fast_fib_gmp n) ∧
    (inRange64 (fast_fib n) ∧ fast_fib n ≡ fast_fib_gmp n [ZMOD 2 ^ 64]) ∧
    (n ≤ 92 → fast_fib n = fast_fib_gmp n) ∧
    (∀ F M : Mat, multiply F M = (multiply_gmp F M).wrap) ∧
    (∀ m : Int, power base m = (power_gmp base m).wrap) := by
  have hw := fast_fib_eq_wrap n
  refine ⟨hw, ⟨?_, ?_⟩, ?_, multiply_eq_wrap, power_base_wrap⟩
  · rw [hw]; exact wrap64_inRange _
  · rw [hw]; exact wrap64_modEq _
  · intro h92
    rw [fast_fib_eq_fib n h0 h92, fast_fib_gmp_eq_fib n h0]

/-- C17 at n = 92. -/
theorem C17_engines_agree_mod_2_64_witness :
    (0 : Int) ≤ 92 ∧ (92 : Int) ≤ 92 ∧ fast_fib 92 = fast_fib_gmp 92 :=
  ⟨by decide, by decide, (C17_engines_agree_mod_2_64 92 (by decide)).2.2.1 (by decide)⟩

/-! ### Termination -/

/-- The depth of the recursion is at most the absolute value of the exponent. -/
theorem power_calls_le (n : Int) : power_calls n ≤ n.natAbs := by
  induction n using power_induction with
  | stop n h => rw [power_calls_stop _ h]; exact Nat.zero_le _
  | step n h ih =>
    have h2 : (n.tdiv 2).natAbs = n.natAbs / 2 := by rw [Int.natAbs_tdiv]; rfl
    rw [power_calls_step _ h]
    omega

/-- Halving the exponent as many times as the recursion is deep reaches 0 or 1. -/
theorem halving_reaches_stop (n : Int) :
    (fun m : Int => m.tdiv 2)^[power_calls n] n = 0 ∨
      (fun m : Int => m.tdiv 2)^[power_calls n] n = 1 := by
  induction n using power_induction with
  | stop n h => rw [power_calls_stop _ h]; exact h
  | step n h ih =>
    rw [power_calls_step _ h, Nat.add_comm, Function.iterate_succ_apply]
    exact ih

/-- With a bound above the depth of the recursion, the bounded `power` returns
what `power` returns. -/
theorem power_fuel_eq (F : Mat) (n : Int) :
    ∀ fuel : Nat, power_calls n < fuel → power_fuel fuel F n = some (power F n) := by
  induction n using power_induction with
  | stop n h =>
    intro fuel hf
    obtain ⟨f, rfl⟩ : ∃ f, fuel = f + 1 := ⟨fuel - 1, by omega⟩
    rw [power_fuel, if_pos h, power_stop _ _ h]
  | step n h ih =>
    intro fuel hf
    rw [power_calls_step _ h] at hf
    obtain ⟨f, rfl⟩ : ∃ f, fuel = f + 1 := ⟨fuel - 1, by omega⟩
    rw [power_fuel, if_neg h, ih f (by omega), power_step _ _ h]
    by_cases hodd : n.tmod 2 ≠ 0
    · simp [hodd]
    · simp [hodd]

theorem power_gmp_fuel_eq (F : Mat) (n : Int) :
    ∀ fuel : Nat, power_calls n < fuel →
      power_gmp_fuel fuel F n = some (power_gmp F n) := by
  induction n using power_induction with
  | stop n h =>
    intro fuel hf
    obtain ⟨f, rfl⟩ : ∃ f, fuel = f + 1 := ⟨fuel - 1, by omega⟩
    rw [power_gmp_fuel, if_pos h, power_gmp_stop _ _ h]
  | step n h ih =>
    intro fuel hf
    rw [power_calls_step _ h] at hf
    obtain ⟨f, rfl⟩ : ∃ f, fuel = f + 1 := ⟨fuel - 1, by omega⟩
    rw [power_gmp_fuel, if_neg h, ih f (by omega), power_gmp_step _ _ h]
    by_cases hodd : n.tmod 2 ≠ 0
    · simp [hodd]
    · simp [hodd]

/-- C18: `power` and `power_gmp` terminate for every exponent n, negative
values included.  C division truncates toward zero, so `|n / 2| < |n|`
whenever n is not 0 or 1 (and `-1 / 2 = 0`); the recursion is therefore at
most `|n|` calls deep, halving the exponent that many times reaches the base
case 0 or 1, and run with any bound above that depth both functions return
their result. -/
theorem C18_power_terminates (F : Mat) (n : Int) :
    (¬ (n = 0 ∨ n = 1) → (n.tdiv 2).natAbs < n.natAbs) ∧
    (-1 : Int).tdiv 2 = 0 ∧
    power_calls n ≤ n.natAbs ∧
    ((fun m : Int => m.tdiv 2)^[power_calls n] n = 0 ∨
      (fun m : Int => m.tdiv 2)^[power_calls n] n = 1) ∧
    (∀ fuel : Nat, power_calls n < fuel →
      power_fuel fuel F n = some (power F n) ∧
      power_gmp_fuel fuel F n = some (power_gmp F n)) := by
  refine ⟨?_, by decide, power_calls_le n, halving_reaches_stop n, ?_⟩
  · intro h
    have h2 : (n.tdiv 2).natAbs = n.natAbs / 2 := by rw [Int.natAbs_tdiv]; rfl
    omega
  · intro fuel hf
    exact ⟨power_fuel_eq F n fuel hf, power_gmp_fuel_eq F n fuel hf⟩

/-- C18 at the most negative C `int`, n = -2^31: the absolute value of the
exponent decreases at the first call, and the recursion is at most 2^31 calls
deep. -/
theorem C18_power_terminates_witness :
    ((-2147483648 : Int).tdiv 2).natAbs < (-2147483648 : Int).natAbs ∧
    power_calls (-2147483648) ≤ (-2147483648 : Int).natAbs :=
  ⟨(C18_power_terminates base (-2147483648)).1 (by decide),
    (C18_power_terminates base (-2147483648)).2.2.1⟩

end FastFib
